import Mathlib

/-!
# tsh: job table, command-line parser and child-notification handler

A shallow embedding of `src/tsh.c`.

Conventions of the embedding.

* C `int` and `pid_t` values are mathematical integers (`Int`).  The only
  arithmetic the job-table code performs on them is `nextjid++` and
  `maxjid(..) + 1`; signed overflow is undefined behaviour in C, and on every
  value for which the C expression is defined the two agree.  `sio_itos`, whose
  `num *= -1` overflows on `INT_MIN`, wraps explicitly modulo `2^32`.
* A `char[]` holding a C string is the list of its characters before the
  terminating NUL.  `strcpy` is assignment of that list and
  `cmdline[0] = 0` makes it empty.
* The global array `jobs[MAXJOBS]` is a list of slots, slot `i` being element
  `i`; a loop `for (i = 0; i < MAXJOBS; i++)` over the array is a recursion
  over that list.
* The globals `jobs`, `nextjid`, `verbose` and everything written to standard
  output are the fields of one record, `Shell`, passed explicitly.  The field
  `out` holds the text of the output calls, `printf` and `write` alike, in the
  order in which the program makes them.
-/

namespace Tsh

/-! ## Constants -/

/-- Max line size. -/
def MAXLINE : Nat := 1024
/-- Max args on a command line. -/
def MAXARGS : Nat := 128
/-- Max jobs at any point in time. -/
def MAXJOBS : Nat := 16

/-- Job state: undefined. -/
def UNDEF : Int := 0
/-- Job state: running in foreground. -/
def FG : Int := 1
/-- Job state: running in background. -/
def BG : Int := 2
/-- Job state: stopped. -/
def ST : Int := 3

/-! ## Data model -/

/-- The job struct. -/
structure job_t where
  pid : Int
  jid : Int
  state : Int
  cmdline : List Char
  deriving DecidableEq, Repr

/-- The global variables of the shell together with its standard output. -/
structure Shell where
  jobs : List job_t
  nextjid : Int
  verbose : Int
  out : List Char
  deriving DecidableEq, Repr

/-! ## Job-list helper routines -/

/-- Source `clearjob`: clear the entries in a job struct. -/
def clearjob (_job : job_t) : job_t :=
  { pid := 0, jid := 0, state := UNDEF, cmdline := [] }

/-- Source `initjobs`: clear every slot of the job list. -/
def initjobs (job_list : List job_t) : List job_t :=
  job_list.map clearjob

/-- The zero-initialised global array `jobs[MAXJOBS]`. -/
def jobs0 : List job_t :=
  List.replicate MAXJOBS { pid := 0, jid := 0, state := 0, cmdline := [] }

/-- The shell state after `main` has called `initjobs(jobs)`: `nextjid = 1`,
nothing printed yet. -/
def initShell (verbose : Int) : Shell :=
  { jobs := initjobs jobs0, nextjid := 1, verbose := verbose, out := [] }

/-- The loop of `maxjid`, carrying the running maximum `max`. -/
def maxjidLoop : List job_t → Int → Int
  | [], max => max
  | j :: rest, max => if j.jid > max then maxjidLoop rest j.jid else maxjidLoop rest max

/-- Source `maxjid`: the largest allocated job id. -/
def maxjid (job_list : List job_t) : Int :=
  maxjidLoop job_list 0

/-- The loop of `addjob`: write the new job into the first slot whose pid is 0.
`none` when the loop falls through without finding one. -/
def addjobLoop (pid state jid : Int) (cmdline : List Char) : List job_t → Option (List job_t)
  | [] => none
  | j :: rest =>
    if j.pid = 0 then
      some ({ pid := pid, jid := jid, state := state, cmdline := cmdline } :: rest)
    else
      (addjobLoop pid state jid cmdline rest).map (fun r => j :: r)

/-- Model of libc `printf("%d", n)`: the decimal numeral of `n`. -/
def fmt_d (n : Int) : List Char :=
  if n < 0 then '-' :: Nat.toDigits 10 n.natAbs else Nat.toDigits 10 n.toNat

/-- The line `addjob` prints under `-v`. -/
def addedJobMsg (jid pid : Int) (cmdline : List Char) : List Char :=
  "Added job [".toList ++ fmt_d jid ++ "] ".toList ++ fmt_d pid ++ " ".toList ++ cmdline
    ++ "\n".toList

/-- Source `addjob`: add a job to the job list.  Returns the C return value and
the new globals. -/
def addjob (s : Shell) (pid state : Int) (cmdline : List Char) : Int × Shell :=
  if pid < 1 then (0, s)
  else
    match addjobLoop pid state s.nextjid cmdline s.jobs with
    | some jobs1 =>
      (1, { jobs := jobs1,
            nextjid := if s.nextjid + 1 > (MAXJOBS : Int) then 1 else s.nextjid + 1,
            verbose := s.verbose,
            out := if s.verbose ≠ 0 then s.out ++ addedJobMsg s.nextjid pid cmdline
                   else s.out })
    | none =>
      (0, { s with out := s.out ++ "Tried to create too many jobs\n".toList })

/-- The loop of `deletejob`: clear the first slot whose pid is `pid`.
`none` when the loop falls through without finding one. -/
def deletejobLoop (pid : Int) : List job_t → Option (List job_t)
  | [] => none
  | j :: rest =>
    if j.pid = pid then some (clearjob j :: rest)
    else (deletejobLoop pid rest).map (fun r => j :: r)

/-- Source `deletejob`: delete the job whose PID is `pid` from the job list. -/
def deletejob (s : Shell) (pid : Int) : Int × Shell :=
  if pid < 1 then (0, s)
  else
    match deletejobLoop pid s.jobs with
    | some jobs1 => (1, { s with jobs := jobs1, nextjid := maxjid jobs1 + 1 })
    | none => (0, s)

/-- Source `fgpid`: PID of the current foreground job, 0 if no such job. -/
def fgpid : List job_t → Int
  | [] => 0
  | j :: rest => if j.state = FG then j.pid else fgpid rest

/-- The scan of `getjobpid` and `pid2jid`: the index of the first slot whose pid
is `pid`. -/
def findpid (pid : Int) : List job_t → Option Nat
  | [] => none
  | j :: rest => if j.pid = pid then some 0 else (findpid pid rest).map (· + 1)

/-- Source `getjobpid`: find a job (by PID) on the job list.  The returned
pointer `&job_list[i]` is the index `i`; `none` is `NULL`. -/
def getjobpid (job_list : List job_t) (pid : Int) : Option Nat :=
  if pid < 1 then none else findpid pid job_list

/-- The scan of `getjobjid`: the index of the first slot whose jid is `jid`. -/
def findjid (jid : Int) : List job_t → Option Nat
  | [] => none
  | j :: rest => if j.jid = jid then some 0 else (findjid jid rest).map (· + 1)

/-- Source `getjobjid`: find a job (by JID) on the job list. -/
def getjobjid (job_list : List job_t) (jid : Int) : Option Nat :=
  if jid < 1 then none else findjid jid job_list

/-- The loop of `pid2jid`. -/
def pid2jidLoop (pid : Int) : List job_t → Int
  | [] => 0
  | j :: rest => if j.pid = pid then j.jid else pid2jidLoop pid rest

/-- Source `pid2jid`: map process ID to job ID. -/
def pid2jid (job_list : List job_t) (pid : Int) : Int :=
  if pid < 1 then 0 else pid2jidLoop pid job_list

/-! ## Sequences of job-table calls -/

/-- One call on the job table: `addjob(jobs, pid, state, cmdline)` or
`deletejob(jobs, pid)`. -/
inductive JobOp where
  | add (pid state : Int) (cmdline : List Char)
  | del (pid : Int)
  deriving DecidableEq, Repr

/-- Perform one call, discarding its return value. -/
def applyOp (s : Shell) : JobOp → Shell
  | .add pid state cmdline => (addjob s pid state cmdline).2
  | .del pid => (deletejob s pid).2

/-- Perform a sequence of calls, first to last. -/
def runOps : Shell → List JobOp → Shell
  | s, [] => s
  | s, op :: ops => runOps (applyOp s op) ops

/-- No two slots hold the same nonzero jid. -/
def JidsUnique (job_list : List job_t) : Prop :=
  job_list.Pairwise (fun a b => a.jid = b.jid → a.jid = 0)

instance (job_list : List job_t) : Decidable (JidsUnique job_list) := by
  unfold JidsUnique; infer_instance

/-- No two slots are in state `FG`. -/
def AtMostOneFG (job_list : List job_t) : Prop :=
  job_list.Pairwise (fun a b => ¬ (a.state = FG ∧ b.state = FG))

instance (job_list : List job_t) : Decidable (AtMostOneFG job_list) := by
  unfold AtMostOneFG; infer_instance

/-- The runs in which no `addjob` finds a free slot while the counter, having
wrapped to 1, has not yet been recomputed by a successful `deletejob`.
`fresh` says that the counter has not wrapped since the start of the run or
since the last successful `deletejob`. -/
def NoAddAfterWrap : Bool → Shell → List JobOp → Prop
  | _, _, [] => True
  | fresh, s, .add pid state cmdline :: ops =>
    if (addjob s pid state cmdline).1 = 1 then
      fresh = true ∧
        NoAddAfterWrap (decide (s.nextjid + 1 ≤ (MAXJOBS : Int)))
          (addjob s pid state cmdline).2 ops
    else NoAddAfterWrap fresh (addjob s pid state cmdline).2 ops
  | fresh, s, .del pid :: ops =>
    NoAddAfterWrap (fresh || decide ((deletejob s pid).1 = 1)) (deletejob s pid).2 ops

/-- Whether a run has an `addjob` after a wrap can be computed. -/
def decNoAddAfterWrap :
    (fresh : Bool) → (s : Shell) → (ops : List JobOp) → Decidable (NoAddAfterWrap fresh s ops)
  | _, _, [] => isTrue trivial
  | fresh, s, .add pid state cmdline :: ops =>
    if h : (addjob s pid state cmdline).1 = 1 then
      match decNoAddAfterWrap (decide (s.nextjid + 1 ≤ (MAXJOBS : Int)))
          (addjob s pid state cmdline).2 ops with
      | isTrue h2 =>
        if h1 : fresh = true then isTrue (by unfold NoAddAfterWrap; rw [if_pos h]; exact ⟨h1, h2⟩)
        else isFalse (by unfold NoAddAfterWrap; rw [if_pos h]; exact fun hh => h1 hh.1)
      | isFalse h2 => isFalse (by unfold NoAddAfterWrap; rw [if_pos h]; exact fun hh => h2 hh.2)
    else
      match decNoAddAfterWrap fresh (addjob s pid state cmdline).2 ops with
      | isTrue h2 => isTrue (by unfold NoAddAfterWrap; rw [if_neg h]; exact h2)
      | isFalse h2 => isFalse (by unfold NoAddAfterWrap; rw [if_neg h]; exact h2)
  | fresh, s, .del pid :: ops =>
    decNoAddAfterWrap (fresh || decide ((deletejob s pid).1 = 1)) (deletejob s pid).2 ops

instance (fresh : Bool) (s : Shell) (ops : List JobOp) :
    Decidable (NoAddAfterWrap fresh s ops) :=
  decNoAddAfterWrap fresh s ops

/-- The caller's discipline on foreground jobs: `addjob` is called with state
`FG` only while no slot is in state `FG`. -/
def FgDiscipline : Shell → List JobOp → Prop
  | _, [] => True
  | s, .add pid state cmdline :: ops =>
    (state = FG → ∀ j ∈ s.jobs, j.state ≠ FG) ∧
      FgDiscipline (addjob s pid state cmdline).2 ops
  | s, .del pid :: ops => FgDiscipline (deletejob s pid).2 ops

/-- Whether a sequence keeps the foreground discipline can be computed. -/
def decFgDiscipline : (s : Shell) → (ops : List JobOp) → Decidable (FgDiscipline s ops)
  | _, [] => isTrue trivial
  | s, .add pid state cmdline :: ops =>
    match decFgDiscipline (addjob s pid state cmdline).2 ops with
    | isTrue h2 =>
      if h1 : state = FG → ∀ j ∈ s.jobs, j.state ≠ FG then isTrue ⟨h1, h2⟩
      else isFalse (fun h => h1 h.1)
    | isFalse h2 => isFalse (fun h => h2 h.2)
  | s, .del pid :: ops => decFgDiscipline (deletejob s pid).2 ops

instance (s : Shell) (ops : List JobOp) : Decidable (FgDiscipline s ops) :=
  decFgDiscipline s ops

/-- Fifteen registrations, one removal, two more registrations: the second of
them is made right after the counter has wrapped to 1. -/
def wrapOps : List JobOp :=
  [.add 101 BG [], .add 102 BG [], .add 103 BG [], .add 104 BG [], .add 105 BG [],
   .add 106 BG [], .add 107 BG [], .add 108 BG [], .add 109 BG [], .add 110 BG [],
   .add 111 BG [], .add 112 BG [], .add 113 BG [], .add 114 BG [], .add 115 BG [],
   .del 102, .add 116 BG [], .add 117 BG []]

/-- The invariant behind job-id uniqueness: the jids are pairwise distinct
(zero apart) and all below the counter. -/
def JidInv (s : Shell) : Prop :=
  JidsUnique s.jobs ∧ ∀ j ∈ s.jobs, j.jid < s.nextjid

/-- The invariant behind job-id uniqueness: the jids are pairwise distinct
(zero apart), and they are all below the counter as long as it is fresh. -/
def JidInvWhen (fresh : Bool) (s : Shell) : Prop :=
  JidsUnique s.jobs ∧ (fresh = true → ∀ j ∈ s.jobs, j.jid < s.nextjid)

/-- The invariant behind the single foreground job: at most one slot is `FG`
and no free slot is. -/
def FgInv (s : Shell) : Prop :=
  AtMostOneFG s.jobs ∧ ∀ j ∈ s.jobs, j.pid = 0 → j.state ≠ FG

/-! ## Signal-safe output -/

/-- The value an `int` holds after a computation whose mathematical result is
`x`: two's-complement wrap-around modulo `2^32`. -/
def wrap32 (x : Int) : Int :=
  (x + 2147483648) % 4294967296 - 2147483648

/-- The digit loop of `sio_itos`, `while (num) { ... }`: append the character
`(char) (num % 10 + 48)` to the buffer `s` and divide `num` by 10, with C's
truncating `%` and `/`.  The first argument bounds the number of iterations. -/
def itosDigits : Nat → Int → List Char → List Char
  | 0, _, s => s
  | fuel + 1, num, s =>
    if num = 0 then s
    else itosDigits fuel (num.tdiv 10) (s ++ [Char.ofNat (num.tmod 10 + 48).toNat])

/-- The body of the reversal loop of `sio_itos`: exchange `s[l]` and `s[r]`. -/
def swapChars (s : List Char) (l r : Nat) : List Char :=
  (s.set l (s.getD r (Char.ofNat 0))).set r (s.getD l (Char.ofNat 0))

/-- The reversal loop of `sio_itos`, `while (l < r) { swap; ++l, --r; }`.  The
first argument bounds the number of iterations. -/
def itosReverse : Nat → List Char → Nat → Nat → List Char
  | 0, s, _, _ => s
  | fuel + 1, s, l, r =>
    if l < r then itosReverse fuel (swapChars s l r) (l + 1) (r - 1) else s

/-- Source `sio_itos`: the text written for the `int` `num`.  The digit loop
runs at most `|num|` times and the reversal loop at most once per character, so
the bounds given to the two loops are never reached. -/
def sio_itos (num : Int) : List Char :=
  if num = 0 then ['0']
  else
    let num1 := if num < 0 then wrap32 (num * -1) else num
    let s0 : List Char := if num < 0 then ['-'] else []
    let s1 := itosDigits num1.natAbs num1 s0
    let l := if num < 0 then 1 else 0
    let r := s1.length - 1
    itosReverse s1.length s1 l r

/-- Source `sio_write_string`: write the string to standard output. -/
def sio_write_string (s : Shell) (string : List Char) : Shell :=
  { s with out := s.out ++ string }

/-- Source `sio_write_int`: write the text of `num` to standard output. -/
def sio_write_int (s : Shell) (num : Int) : Shell :=
  sio_write_string s (sio_itos num)

/-! ## The child-notification handler -/

/-- What `waitpid` reports about a child in `status`: the case distinction made
by `WIFSTOPPED`, `WIFSIGNALED` and `WIFEXITED`, with the number read by
`WSTOPSIG`, `WTERMSIG` or `WEXITSTATUS`.  `other` is a status for which none of
the three tests holds. -/
inductive WStatus where
  | stopped (sig : Int)
  | signaled (sig : Int)
  | exited (code : Int)
  | other
  deriving DecidableEq, Repr

/-- The assignment `job->state = state` through the pointer `&job_list[i]`. -/
def setStateAt : Nat → Int → List job_t → List job_t
  | _, _, [] => []
  | 0, state, j :: rest => { j with state := state } :: rest
  | i + 1, state, j :: rest => j :: setStateAt i state rest

/-- The body of the loop of `sigchld_handler` once `waitpid` has returned `pid`
and filled in `status`.  `none` is the dereference of the `NULL` that
`getjobpid` returns for a pid that is not in the table. -/
def sigchld_body (s : Shell) (pid : Int) (status : WStatus) : Option Shell :=
  if pid > 0 then
    match status with
    | .stopped sig =>
      let s := sio_write_string s "Job [".toList
      let s := sio_write_int s (pid2jid s.jobs pid)
      let s := sio_write_string s "] (".toList
      let s := sio_write_int s pid
      let s := sio_write_string s ") stopped by signal ".toList
      let s := sio_write_int s sig
      let s := sio_write_string s "\n".toList
      match getjobpid s.jobs pid with
      | some i => some { s with jobs := setStateAt i ST s.jobs }
      | none => none
    | .signaled sig =>
      let s := sio_write_string s "Job [".toList
      let s := sio_write_int s (pid2jid s.jobs pid)
      let s := sio_write_string s "] (".toList
      let s := sio_write_int s pid
      let s := sio_write_string s ") terminated by signal ".toList
      let s := sio_write_int s sig
      let s := sio_write_string s "\n".toList
      some (deletejob s pid).2
    | .exited _ => some (deletejob s pid).2
    | .other => some s
  else some s

/-- The iterations `i, i + 1, ...` of the loop of `sigchld_handler`, one per
element of the first argument.  `waitpid i p` is what the `i`-th call
`waitpid(jobs[i].pid, &status_p, WNOHANG | WUNTRACED)`, made with
`jobs[i].pid = p`, returns and stores in `status_p`. -/
def sigchld_loop (waitpid : Nat → Int → Int × WStatus) : List Nat → Shell → Option Shell
  | [], s => some s
  | i :: is, s =>
    match s.jobs[i]? with
    | none => none
    | some j =>
      match sigchld_body s (waitpid i j.pid).1 (waitpid i j.pid).2 with
      | none => none
      | some s1 => sigchld_loop waitpid is s1

/-- Source `sigchld_handler`: poll `waitpid` once per slot and update the job
list.  Saving `errno` and the signal mask leave the globals alone. -/
def sigchld_handler (s : Shell) (waitpid : Nat → Int → Int × WStatus) : Option Shell :=
  sigchld_loop waitpid (List.range MAXJOBS) s

/-! ## The command-line parser -/

/-- The NUL character that terminates a C string. -/
def NUL : Char := Char.ofNat 0

/-- The single-quote character. -/
def SQUOTE : Char := Char.ofNat 39

/-- The character `*p` read through a pointer `p = array + i`. -/
def peek (buf : List Char) (i : Nat) : Char :=
  buf.getD i NUL

/-- The C string that starts at `array + i`: the characters up to the first NUL. -/
def cstrAt (buf : List Char) (i : Nat) : List Char :=
  (buf.drop i).takeWhile (fun c => c ≠ NUL)

/-- The libc function `strlen`, on the string at the start of `buf`. -/
def strlen (buf : List Char) : Nat :=
  (cstrAt buf 0).length

/-- The scan of libc `strchr`: the offset of the first `c` in the string. -/
def strchrFrom (c : Char) : List Char → Option Nat
  | [] => none
  | x :: rest =>
    if x = c then some 0
    else if x = NUL then none
    else (strchrFrom c rest).map (· + 1)

/-- The libc function `strchr(array + i, c)`, the result being an offset into
`array`; `none` is `NULL`. -/
def strchr (buf : List Char) (i : Nat) (c : Char) : Option Nat :=
  (strchrFrom c (buf.drop i)).map (· + i)

/-- The number of iterations of `while (*buf && (*buf == ' ')) buf++;`. -/
def countSpaces : List Char → Nat
  | [] => 0
  | x :: rest => if x ≠ NUL ∧ x = ' ' then countSpaces rest + 1 else 0

/-- The loop `while (*buf && (*buf == ' ')) buf++;` started at `array + i`. -/
def skipSpaces (buf : List Char) (i : Nat) : Nat :=
  i + countSpaces (buf.drop i)

/-- The `if (*buf == '\'') ... else ...` that looks for the end of the next
argument: the new value of `buf` and the value of `delim`. -/
def findDelim (buf : List Char) (pos : Nat) : Nat × Option Nat :=
  if peek buf pos = SQUOTE then (pos + 1, strchr buf (pos + 1) SQUOTE)
  else (pos, strchr buf pos ' ')

/-- The loop `while (delim) { ... }` of `parseline`, on the contents of the
static array, the offset `pos` of the pointer `buf`, `delim`, and the pointers
stored in `argv[0 .. argc - 1]` so far.  The first argument bounds the number
of iterations; `none` when it is reached. -/
def parseLoop : Nat → List Char → Nat → Option Nat → List Nat → Option (List Char × List Nat)
  | _, buf, _, none, argv => some (buf, argv)
  | 0, _, _, some _, _ => none
  | fuel + 1, buf, pos, some delim, argv =>
    let argv1 := argv ++ [pos]
    let buf1 := buf.set delim NUL
    let pos1 := skipSpaces buf1 (delim + 1)
    parseLoop fuel buf1 (findDelim buf1 pos1).1 (findDelim buf1 pos1).2 argv1

/-- The first part of `parseline`, up to and including `argv[argc] = NULL`:
the final contents of the static array and the pointers `argv[0 .. argc - 1]`.
`none` for the empty command line, on which `buf[strlen(buf) - 1]` is outside
the array.  The static array is taken to hold the whole line (`main` reads at
most `MAXLINE - 1` characters), and `argv` is a list without a bound: the
indices written are `0 .. argv.length`. -/
def parseline_split (cmdline : List Char) : Option (List Char × List Nat) :=
  let buf := cstrAt cmdline 0 ++ [NUL]
  if strlen buf = 0 then none
  else
    let buf1 := buf.set (strlen buf - 1) ' '
    let pos := skipSpaces buf1 0
    parseLoop buf1.length buf1 (findDelim buf1 pos).1 (findDelim buf1 pos).2 []

/-- What `parseline` leaves behind: its return value, the pointers
`argv[0 .. argc - 1]` in front of the terminating `NULL`, and the static array
they point into. -/
structure Parsed where
  ret : Int
  argv : List Nat
  array : List Char
  deriving DecidableEq, Repr

/-- The argument strings `argv[0], argv[1], ...`. -/
def Parsed.args (p : Parsed) : List (List Char) :=
  p.argv.map (cstrAt p.array)

/-- Source `parseline`: parse the command line and build the argv array. -/
def parseline (cmdline : List Char) : Option Parsed :=
  match parseline_split cmdline with
  | none => none
  | some (buf, argv) =>
    match argv.getLast? with
    | none => some { ret := 1, argv := argv, array := buf }
    | some last =>
      if peek buf last = '&' then some { ret := 1, argv := argv.dropLast, array := buf }
      else some { ret := 0, argv := argv, array := buf }

/-- The strings `argv[0 .. argc - 1]` at the end of the loop of `parseline`,
before the test for a background job. -/
def parseline_tokens (cmdline : List Char) : Option (List (List Char)) :=
  (parseline_split cmdline).map (fun r => r.2.map (cstrAt r.1))

/-! ## Built-in commands and `eval` -/

/-- The table of built-in command names. -/
def buildin_cmd : List (List Char) :=
  ["quit".toList, "fg".toList, "bg".toList, "jobs".toList]

/-- Source `builtin_cmd`: 1 when `argv[0]` is one of the built-in names, else 0.
`eval` calls it with `argv[0] != NULL` only. -/
def builtin_cmd (argv : List (List Char)) : Int :=
  if buildin_cmd.any (fun name => argv.head? = some name) then 1 else 0

/-- What `listjobs` prints for slot `i`. -/
def listjobsEntry (i : Nat) (j : job_t) : List Char :=
  if j.pid ≠ 0 then
    "[".toList ++ fmt_d j.jid ++ "] (".toList ++ fmt_d j.pid ++ ") ".toList ++
      (if j.state = BG then "Running ".toList
       else if j.state = FG then "Foreground ".toList
       else if j.state = ST then "Stopped ".toList
       else "listjobs: Internal error: job[".toList ++ fmt_d i ++ "].state=".toList ++
         fmt_d j.state ++ " ".toList) ++
      j.cmdline
  else []

/-- The loop of `listjobs` from slot `i` on. -/
def listjobsLoop : Nat → List job_t → List Char
  | _, [] => []
  | i, j :: rest => listjobsEntry i j ++ listjobsLoop (i + 1) rest

/-- Source `listjobs`: print the job list. -/
def listjobs (s : Shell) : Shell :=
  { s with out := s.out ++ listjobsLoop 0 s.jobs }

/-- How a call of `eval` ends for the process that made it. -/
inductive Outcome where
  /-- The call returns to the read/eval loop. -/
  | ret (s : Shell)
  /-- The process calls `exit(0)`. -/
  | exit (s : Shell)
  /-- The process, the forked child, is replaced by the program `argv[0]`. -/
  | exec (argv : List (List Char))
  /-- The call is in `waitfg(pid)` with `fgpid(jobs) == pid`: it returns only
  after a signal handler has changed the job list. -/
  | waiting (s : Shell) (pid : Int)
  /-- The call has no defined behaviour. -/
  | undefined
  deriving DecidableEq, Repr

/-- Source `do_bgfg`: `quit` exits, `jobs` lists the jobs, and every other
built-in prints a fixed line. -/
def do_bgfg (s : Shell) (argv : List (List Char)) : Outcome :=
  if argv.head? = buildin_cmd[0]? then .exit s
  else if argv.head? = buildin_cmd[3]? then .ret (listjobs s)
  else .ret { s with out := s.out ++ "do build in cmd\n".toList }

/-- Source `waitfg`: return at once when `pid` is not the foreground job,
otherwise sleep until a handler changes that. -/
def waitfg (s : Shell) (pid : Int) : Outcome :=
  if fgpid s.jobs = pid then .waiting s pid else .ret s

/-- The runs of `sigchld_handler` that take place one after the other while
`SIGCHLD` is not blocked, each given by what its calls of `waitpid` return.
`none` when one of them dereferences `NULL`. -/
def runHandlers : List (Nat → Int → Int × WStatus) → Shell → Option Shell
  | [], s => some s
  | w :: ws, s =>
    match sigchld_handler s w with
    | none => none
    | some s1 => runHandlers ws s1

/-- The parent's branch of `eval` after `fork` has returned `pid`, with the
return value `bg` of `parseline`.  `addjob` runs with the signals blocked;
`chld` are the runs of `sigchld_handler` that take place once
`sigprocmask(SIG_SETMASK, &sig_old, NULL)` has unblocked them and before
`printf`, respectively `waitfg`, reads the job list: the run for a `SIGCHLD`
that was pending and those for signals that arrive in between.  The handlers
of `SIGINT` and `SIGTSTP` leave the globals alone. -/
def eval_parent (s : Shell) (bg : Int) (pid : Int) (cmdline : List Char)
    (chld : List (Nat → Int → Int × WStatus)) : Outcome :=
  if bg ≠ 0 then
    match runHandlers chld (addjob s pid BG cmdline).2 with
    | none => .undefined
    | some s2 =>
      .ret { s2 with out := s2.out ++ ("[".toList ++ fmt_d (pid2jid s2.jobs pid) ++ "] (".toList
        ++ fmt_d pid ++ ") ".toList ++ cmdline) }
  else
    match runHandlers chld (addjob s pid FG cmdline).2 with
    | none => .undefined
    | some s2 => waitfg s2 pid

/-- The child's branch of `eval`: `execve`, and when that fails (`execOk`
false) the message and `exit(0)`. -/
def eval_child (s : Shell) (argv : List (List Char)) (execOk : Bool) : Outcome :=
  if execOk then .exec argv
  else .exit { s with out := s.out ++ (argv.headD [] ++ ": Command not found\n".toList) }

/-- Whether `parseline` writes past the end of the array
`char *argv[MAXARGS]` that `eval` passes in: it writes `argv[0 .. argc]`, the
last of them the terminating `NULL`, so it does when `argc >= MAXARGS`. -/
def argvOverrun (cmdline : List Char) : Bool :=
  match parseline_split cmdline with
  | none => false
  | some r => decide (MAXARGS ≤ r.2.length)

/-- Source `eval`: evaluate the command line.  `pid` is the value `fork`
returns if it is called, `execOk` whether `execve` succeeds if it is called,
and `chld` the runs of `sigchld_handler` between the unblocking of the signals
and the parent's next look at the job list.  A line on which `parseline`
overruns `argv` has no defined behaviour. -/
def eval (s : Shell) (cmdline : List Char) (pid : Int) (execOk : Bool)
    (chld : List (Nat → Int → Int × WStatus)) : Outcome :=
  match parseline cmdline with
  | none => .undefined
  | some p =>
    if argvOverrun cmdline then .undefined
    else if p.args = [] then .ret s
    else if builtin_cmd p.args ≠ 0 then do_bgfg s p.args
    else if pid = 0 then eval_child s p.args execOk
    else eval_parent s p.ret pid cmdline chld

/-! ## Command lines written as tokens -/

/-- A token of a command line: a run of characters without a space, or a span
enclosed in single quotes. -/
inductive Token where
  | plain (w : List Char)
  | quoted (w : List Char)
  deriving DecidableEq, Repr

/-- The characters of the token as they stand on the command line. -/
def Token.text : Token → List Char
  | .plain w => w
  | .quoted w => SQUOTE :: (w ++ [SQUOTE])

/-- The argument the token stands for: a quoted span without its quotes. -/
def Token.arg : Token → List Char
  | .plain w => w
  | .quoted w => w

/-- A plain token is a non-empty run of characters other than space that does
not start with a single quote; a quoted span has no single quote inside.
Neither contains NUL. -/
def Token.WF : Token → Prop
  | .plain w => w ≠ [] ∧ ' ' ∉ w ∧ NUL ∉ w ∧ w.head? ≠ some SQUOTE
  | .quoted w => SQUOTE ∉ w ∧ NUL ∉ w

instance (t : Token) : Decidable t.WF := by
  cases t <;> unfold Token.WF <;> infer_instance

/-- Tokens one after the other, each followed by its number of spaces. -/
def lineBody : List (Token × Nat) → List Char
  | [] => []
  | it :: rest => it.1.text ++ (List.replicate it.2 ' ' ++ lineBody rest)

/-- Every token but the last is followed by at least one space. -/
def SpacedOut : List (Token × Nat) → Prop
  | [] => True
  | [_] => True
  | it :: next :: rest => 1 ≤ it.2 ∧ SpacedOut (next :: rest)

/-- Whether the tokens are separated by spaces can be computed. -/
def decSpacedOut : (items : List (Token × Nat)) → Decidable (SpacedOut items)
  | [] => isTrue trivial
  | [_] => isTrue trivial
  | it :: next :: rest =>
    match decSpacedOut (next :: rest) with
    | isTrue h2 => if h1 : 1 ≤ it.2 then isTrue ⟨h1, h2⟩ else isFalse (fun h => h1 h.1)
    | isFalse h2 => isFalse (fun h => h2 h.2)

instance (items : List (Token × Nat)) : Decidable (SpacedOut items) := decSpacedOut items

/-- The newline-terminated command line with `lead` leading spaces and the
given tokens, each followed by its number of spaces. -/
def commandLine (lead : Nat) (items : List (Token × Nat)) : List Char :=
  List.replicate lead ' ' ++ (lineBody items ++ ['\n'])

/-! ## Concrete shell states -/

/-- A free slot, as `clearjob` leaves it. -/
def freeSlot : job_t :=
  { pid := 0, jid := 0, state := UNDEF, cmdline := [] }

/-- The shell after `sleep 100` (pid 22203) has been launched in the foreground
and stopped: one job, in state `ST`. -/
def stoppedJobShell : Shell :=
  { jobs := { pid := 22203, jid := 1, state := ST, cmdline := "sleep 100\n".toList } ::
      List.replicate 15 freeSlot,
    nextjid := 2, verbose := 0, out := [] }

/-- Sixteen registrations, which fill the table. -/
def fillOps : List JobOp :=
  [.add 101 BG [], .add 102 BG [], .add 103 BG [], .add 104 BG [], .add 105 BG [],
   .add 106 BG [], .add 107 BG [], .add 108 BG [], .add 109 BG [], .add 110 BG [],
   .add 111 BG [], .add 112 BG [], .add 113 BG [], .add 114 BG [], .add 115 BG [],
   .add 116 BG []]

/-- The shell with a full job table. -/
def fullShell : Shell :=
  runOps (initShell 0) fillOps

/-! ## The interactive signal relay -/

/-- The two signals the shell relays to the foreground job. -/
inductive Signal where
  | SIGINT
  | SIGTSTP
  deriving DecidableEq, Repr

/-- The loop shared by `sigint_handler` and `sigtstp_handler`,
`if (jobs[i].state == FG) { kill(-jobs[i].pid, sig); break; }`: the calls of
`kill` it makes, each as the pair of its two arguments. -/
def relayLoop (sig : Signal) : List job_t → List (Int × Signal)
  | [] => []
  | j :: rest => if j.state = FG then [(-j.pid, sig)] else relayLoop sig rest

/-- Source `sigint_handler`: the globals it leaves and the calls of `kill` it
makes.  Saving `errno` and the signal mask leave the globals alone. -/
def sigint_handler (s : Shell) : Shell × List (Int × Signal) :=
  (s, relayLoop .SIGINT s.jobs)

/-- Source `sigtstp_handler`: the globals it leaves and the calls of `kill` it
makes. -/
def sigtstp_handler (s : Shell) : Shell × List (Int × Signal) :=
  (s, relayLoop .SIGTSTP s.jobs)

/-! ## Reachable tables -/

/-- The call `clearjob(&job_list[i])`. -/
def clearAt : Nat → List job_t → List job_t
  | _, [] => []
  | 0, j :: rest => clearjob j :: rest
  | i + 1, j :: rest => j :: clearAt i rest

/-- One step on the job table: `addjob`, `deletejob`, `clearjob` on slot `i`,
or the body of the handler's loop for a child `pid` reported with `status`
(which on a stop sets `state = ST`). -/
inductive TableOp where
  | add (pid state : Int) (cmdline : List Char)
  | del (pid : Int)
  | clear (i : Nat)
  | notify (pid : Int) (status : WStatus)
  deriving DecidableEq, Repr

/-- Perform one step; `none` when the handler dereferences `NULL`. -/
def applyTableOp (s : Shell) : TableOp → Option Shell
  | .add pid state cmdline => some (addjob s pid state cmdline).2
  | .del pid => some (deletejob s pid).2
  | .clear i => some { s with jobs := clearAt i s.jobs }
  | .notify pid status => sigchld_body s pid status

/-- Perform a sequence of steps, first to last. -/
def runTableOps : Shell → List TableOp → Option Shell
  | s, [] => some s
  | s, op :: ops =>
    match applyTableOp s op with
    | none => none
    | some s1 => runTableOps s1 ops

/-- A step other than an `addjob` with a state that is not `FG`, `BG` or `ST`. -/
def TableOp.Live : TableOp → Prop
  | .add _ state _ => state = FG ∨ state = BG ∨ state = ST
  | _ => True

instance (op : TableOp) : Decidable op.Live := by
  cases op <;> unfold TableOp.Live <;> infer_instance

/-- Every `addjob` of the sequence is called with state `FG`, `BG` or `ST`. -/
def AddsLive (ops : List TableOp) : Prop :=
  ∀ op ∈ ops, op.Live

instance (ops : List TableOp) : Decidable (AddsLive ops) := by
  unfold AddsLive; infer_instance

/-- Each slot has a nonzero pid exactly when its state is not `UNDEF`. -/
def SlotsWF (job_list : List job_t) : Prop :=
  ∀ j ∈ job_list, (j.pid ≠ 0 ↔ j.state ≠ UNDEF)

instance (job_list : List job_t) : Decidable (SlotsWF job_list) := by
  unfold SlotsWF; infer_instance

/-! ## The foreground wait against successive snapshots -/

/-- Source `waitfg`, `while (fgpid(jobs) == pid) sleep(1);`, run against the
successive contents of `jobs`, one per evaluation of the loop condition: the
index of the snapshot at which the loop ends and `waitfg` returns, `none` when
it is still sleeping after the last one. -/
def waitfgPolls (pid : Int) : List (List job_t) → Option Nat
  | [] => none
  | snap :: rest =>
    if fgpid snap = pid then (waitfgPolls pid rest).map (· + 1) else some 0

/-! ## The job listing, as the specification words it -/

/-- The word that names a state in the listing. -/
def stateWord (state : Int) : List Char :=
  if state = BG then "Running".toList
  else if state = FG then "Foreground".toList
  else "Stopped".toList

/-- One entry of the listing: `[<jid>] (<pid>) <StateWord> <cmdline>`. -/
def listingEntry (j : job_t) : List Char :=
  "[".toList ++ fmt_d j.jid ++ "] (".toList ++ fmt_d j.pid ++ ") ".toList ++
    stateWord j.state ++ " ".toList ++ j.cmdline

/-- The listing: one entry per slot with a nonzero pid, in slot order. -/
def listingSpec (job_list : List job_t) : List Char :=
  ((job_list.filter (fun j => j.pid ≠ 0)).map listingEntry).flatten

/-! ## A command line of many arguments -/

/-- The argument `a` followed by a space, `n` times. -/
def repeatedArg : Nat → List Char
  | 0 => []
  | n + 1 => 'a' :: ' ' :: repeatedArg n

/-- A command line of 128 one-letter arguments, 256 characters with its
newline. -/
def manyArgsLine : List Char :=
  repeatedArg 127 ++ ['a', '\n']

/-- A table whose only slot has pid 0 and still holds a jid, a state and a
command line. -/
def staleSlotShell : Shell :=
  { jobs := [{ pid := 0, jid := 7, state := BG, cmdline := "old\n".toList }],
    nextjid := 8, verbose := 0, out := [] }

/-! ## Quote/space splitting, as the specification words it -/

/-- Where the scanner is: between tokens, inside a plain token, or inside a
quoted span; inside a token it carries the characters read so far, last
first. -/
inductive ScanMode where
  | between
  | word (acc : List Char)
  | quoted (acc : List Char)
  deriving DecidableEq, Repr

/-- Quote/space splitting as a scan over the characters: spaces separate
tokens; a token that starts with a single quote runs to the next single quote
and stands for the characters between the two; any other token runs to the
next space.  A token that is still open at the end of the text is not a
token. -/
def scanTokens : ScanMode → List Char → List (List Char)
  | _, [] => []
  | .between, c :: cs =>
    if c = ' ' then scanTokens .between cs
    else if c = SQUOTE then scanTokens (.quoted []) cs
    else scanTokens (.word [c]) cs
  | .word acc, c :: cs =>
    if c = ' ' then acc.reverse :: scanTokens .between cs
    else scanTokens (.word (c :: acc)) cs
  | .quoted acc, c :: cs =>
    if c = SQUOTE then acc.reverse :: scanTokens .between cs
    else scanTokens (.quoted (c :: acc)) cs

/-- The tokens of a command line, given without its final newline; the newline
ends the last token as a space would. -/
def splitLine (line : List Char) : List (List Char) :=
  scanTokens .between (line ++ [' '])

/-! # Properties -/

/-! ## The job-table loops -/

theorem maxjidLoop_le_start (l : List job_t) (m : Int) : m ≤ maxjidLoop l m := by
  induction l generalizing m with
  | nil => simp [maxjidLoop]
  | cons j rest ih =>
    simp only [maxjidLoop]
    split
    · rename_i h
      exact le_trans (le_of_lt h) (ih _)
    · exact ih _

theorem maxjidLoop_ge_mem (l : List job_t) (m : Int) : ∀ j ∈ l, j.jid ≤ maxjidLoop l m := by
  induction l generalizing m with
  | nil => simp
  | cons x rest ih =>
    intro j hj
    simp only [maxjidLoop]
    rcases List.mem_cons.1 hj with rfl | h
    · split
      · exact maxjidLoop_le_start _ _
      · rename_i hlt
        exact le_trans (not_lt.1 hlt) (maxjidLoop_le_start _ _)
    · split <;> exact ih _ j h

theorem maxjidLoop_attained (l : List job_t) (m : Int) :
    maxjidLoop l m = m ∨ ∃ j ∈ l, j.jid = maxjidLoop l m := by
  induction l generalizing m with
  | nil => simp [maxjidLoop]
  | cons x rest ih =>
    simp only [maxjidLoop]
    split
    · rcases ih x.jid with h | ⟨j, hj, hEq⟩
      · exact Or.inr ⟨x, List.mem_cons_self _ _, h.symm⟩
      · exact Or.inr ⟨j, List.mem_cons_of_mem _ hj, hEq⟩
    · rcases ih m with h | ⟨j, hj, hEq⟩
      · exact Or.inl h
      · exact Or.inr ⟨j, List.mem_cons_of_mem _ hj, hEq⟩

theorem addjobLoop_none_iff (pid state jid : Int) (cmdline : List Char) (l : List job_t) :
    addjobLoop pid state jid cmdline l = none ↔ ∀ j ∈ l, j.pid ≠ 0 := by
  induction l with
  | nil => simp [addjobLoop]
  | cons x rest ih =>
    by_cases hx : x.pid = 0
    · simp [addjobLoop, hx]
    · simp [addjobLoop, hx, ih]

theorem addjobLoop_some_split (pid state jid : Int) (cmdline : List Char) (l l1 : List job_t)
    (h : addjobLoop pid state jid cmdline l = some l1) :
    ∃ pre j post, l = pre ++ j :: post ∧ j.pid = 0 ∧ (∀ x ∈ pre, x.pid ≠ 0) ∧
      l1 = pre ++ { pid := pid, jid := jid, state := state, cmdline := cmdline } :: post := by
  induction l generalizing l1 with
  | nil => simp [addjobLoop] at h
  | cons x rest ih =>
    by_cases hx : x.pid = 0
    · simp only [addjobLoop, hx, if_true, Option.some.injEq] at h
      exact ⟨[], x, rest, by simp, hx, by simp, by simp [← h]⟩
    · simp only [addjobLoop, hx, if_false, Option.map_eq_some'] at h
      obtain ⟨r, hr, hl1⟩ := h
      obtain ⟨pre, j, post, h1, h2, h3, h4⟩ := ih r hr
      refine ⟨x :: pre, j, post, by simp [h1], h2, ?_, by simp [← hl1, h4]⟩
      intro y hy
      rcases List.mem_cons.1 hy with rfl | hy
      · exact hx
      · exact h3 y hy

theorem deletejobLoop_none_iff (pid : Int) (l : List job_t) :
    deletejobLoop pid l = none ↔ ∀ j ∈ l, j.pid ≠ pid := by
  induction l with
  | nil => simp [deletejobLoop]
  | cons x rest ih =>
    by_cases hx : x.pid = pid
    · simp [deletejobLoop, hx]
    · simp [deletejobLoop, hx, ih]

theorem deletejobLoop_some_split (pid : Int) (l l1 : List job_t)
    (h : deletejobLoop pid l = some l1) :
    ∃ pre j post, l = pre ++ j :: post ∧ j.pid = pid ∧ (∀ x ∈ pre, x.pid ≠ pid) ∧
      l1 = pre ++ clearjob j :: post := by
  induction l generalizing l1 with
  | nil => simp [deletejobLoop] at h
  | cons x rest ih =>
    by_cases hx : x.pid = pid
    · simp only [deletejobLoop, hx, if_true, Option.some.injEq] at h
      exact ⟨[], x, rest, by simp, hx, by simp, by simp [← h]⟩
    · simp only [deletejobLoop, hx, if_false, Option.map_eq_some'] at h
      obtain ⟨r, hr, hl1⟩ := h
      obtain ⟨pre, j, post, h1, h2, h3, h4⟩ := ih r hr
      refine ⟨x :: pre, j, post, by simp [h1], h2, ?_, by simp [← hl1, h4]⟩
      intro y hy
      rcases List.mem_cons.1 hy with rfl | hy
      · exact hx
      · exact h3 y hy

/-! ## Job-id uniqueness -/

theorem jidInv_init (tbl : List job_t) (v : Int) (o : List Char) :
    JidInv { jobs := initjobs tbl, nextjid := 1, verbose := v, out := o } := by
  constructor
  · show List.Pairwise _ (initjobs tbl)
    unfold initjobs
    rw [List.pairwise_map]
    exact List.pairwise_of_forall (fun _ _ _ => rfl)
  · intro j hj
    simp only [initjobs, List.mem_map] at hj
    obtain ⟨_, _, rfl⟩ := hj
    simp [clearjob]

theorem jidsUnique_addjob (s : Shell) (pid state : Int) (cmdline : List Char)
    (hu : JidsUnique s.jobs) (hb : ∀ j ∈ s.jobs, j.jid < s.nextjid) :
    JidsUnique (addjob s pid state cmdline).2.jobs := by
  unfold addjob
  by_cases hp : pid < 1
  · simpa [hp] using hu
  · cases hl : addjobLoop pid state s.nextjid cmdline s.jobs with
    | none => simpa [hp, hl] using hu
    | some l1 =>
      simp only [hp, hl, if_false]
      obtain ⟨pre, j, post, h1, _, _, h4⟩ := addjobLoop_some_split _ _ _ _ _ _ hl
      unfold JidsUnique at *
      rw [h1] at hu hb
      subst h4
      rw [List.pairwise_append, List.pairwise_cons] at hu ⊢
      obtain ⟨hu1, ⟨_, hu2⟩, hu3⟩ := hu
      refine ⟨hu1, ⟨?_, hu2⟩, ?_⟩
      · intro b hb1 hEq
        have := hb b (by simp [hb1])
        simp only at hEq
        omega
      · intro a ha b hb1
        rcases List.mem_cons.1 hb1 with rfl | hb2
        · intro hEq
          have := hb a (by simp [ha])
          simp only at hEq
          omega
        · exact hu3 a ha b (List.mem_cons_of_mem _ hb2)

theorem addjob_jids_le (s : Shell) (pid state : Int) (cmdline : List Char)
    (hb : ∀ j ∈ s.jobs, j.jid < s.nextjid) :
    ∀ j ∈ (addjob s pid state cmdline).2.jobs, j.jid < s.nextjid + 1 := by
  unfold addjob
  by_cases hp : pid < 1
  · intro j hj
    have := hb j (by simpa [hp] using hj)
    omega
  · cases hl : addjobLoop pid state s.nextjid cmdline s.jobs with
    | none =>
      intro j hj
      have := hb j (by simpa [hp, hl] using hj)
      omega
    | some l1 =>
      simp only [hp, hl, if_false]
      obtain ⟨pre, j, post, h1, _, _, h4⟩ := addjobLoop_some_split _ _ _ _ _ _ hl
      rw [h1] at hb
      subst h4
      intro x hx
      rcases List.mem_append.1 hx with hx | hx
      · have := hb x (by simp [hx]); omega
      · rcases List.mem_cons.1 hx with rfl | hx
        · simp
        · have := hb x (by simp [hx]); omega

theorem addjob_nextjid (s : Shell) (pid state : Int) (cmdline : List Char)
    (h1 : (addjob s pid state cmdline).1 = 1) (hn : s.nextjid + 1 ≤ (MAXJOBS : Int)) :
    (addjob s pid state cmdline).2.nextjid = s.nextjid + 1 := by
  unfold addjob at h1 ⊢
  by_cases hp : pid < 1
  · simp [hp] at h1
  · cases hl : addjobLoop pid state s.nextjid cmdline s.jobs with
    | none => simp [hp, hl] at h1
    | some l1 =>
      simp only [hp, hl, if_false]
      rw [if_neg (by omega)]

theorem addjob_failed (s : Shell) (pid state : Int) (cmdline : List Char)
    (h1 : ¬ (addjob s pid state cmdline).1 = 1) :
    (addjob s pid state cmdline).2.jobs = s.jobs ∧
      (addjob s pid state cmdline).2.nextjid = s.nextjid := by
  unfold addjob at h1 ⊢
  by_cases hp : pid < 1
  · simp [hp]
  · cases hl : addjobLoop pid state s.nextjid cmdline s.jobs with
    | none => simp [hp, hl]
    | some l1 => simp [hp, hl] at h1

theorem deletejob_failed (s : Shell) (pid : Int) (h1 : ¬ (deletejob s pid).1 = 1) :
    (deletejob s pid).2 = s := by
  unfold deletejob at h1 ⊢
  by_cases hp : pid < 1
  · simp [hp]
  · cases hl : deletejobLoop pid s.jobs with
    | none => simp [hp, hl]
    | some l1 => simp [hp, hl] at h1

theorem jidInvWhen_addjob (fresh : Bool) (s : Shell) (pid state : Int) (cmdline : List Char)
    (h : JidInvWhen fresh s) (h1 : (addjob s pid state cmdline).1 = 1) (hf : fresh = true) :
    JidInvWhen (decide (s.nextjid + 1 ≤ (MAXJOBS : Int))) (addjob s pid state cmdline).2 := by
  obtain ⟨hu, hb⟩ := h
  refine ⟨jidsUnique_addjob s pid state cmdline hu (hb hf), ?_⟩
  intro hd
  have hn : s.nextjid + 1 ≤ (MAXJOBS : Int) := by simpa using hd
  rw [addjob_nextjid s pid state cmdline h1 hn]
  exact addjob_jids_le s pid state cmdline (hb hf)

theorem jidInv_deletejob_ok (s : Shell) (pid : Int) (hu : JidsUnique s.jobs)
    (h1 : (deletejob s pid).1 = 1) : JidInv (deletejob s pid).2 := by
  unfold deletejob at h1 ⊢
  by_cases hp : pid < 1
  · simp [hp] at h1
  · cases hl : deletejobLoop pid s.jobs with
    | none => simp [hp, hl] at h1
    | some l1 =>
      simp only [hp, hl, if_false]
      obtain ⟨pre, j, post, h1, _, _, h4⟩ := deletejobLoop_some_split _ _ _ hl
      unfold JidInv JidsUnique at *
      refine ⟨?_, fun x hx => Int.lt_add_one_iff.2 (maxjidLoop_ge_mem _ _ x hx)⟩
      simp only
      rw [h1] at hu
      subst h4
      rw [List.pairwise_append, List.pairwise_cons] at hu ⊢
      obtain ⟨hu1, ⟨_, hu2⟩, hu3⟩ := hu
      refine ⟨hu1, ⟨fun _ _ _ => rfl, hu2⟩, ?_⟩
      intro a ha b hb1
      rcases List.mem_cons.1 hb1 with rfl | hb2
      · intro hEq
        simpa [clearjob] using hEq
      · exact hu3 a ha b (List.mem_cons_of_mem _ hb2)

theorem jidInvWhen_deletejob (fresh : Bool) (s : Shell) (pid : Int) (h : JidInvWhen fresh s) :
    JidInvWhen (fresh || decide ((deletejob s pid).1 = 1)) (deletejob s pid).2 := by
  by_cases h1 : (deletejob s pid).1 = 1
  · have := jidInv_deletejob_ok s pid h.1 h1
    exact ⟨this.1, fun _ => this.2⟩
  · rw [deletejob_failed s pid h1]
    simpa [h1] using h

theorem jidInvWhen_runOps (ops : List JobOp) (fresh : Bool) (s : Shell)
    (h : JidInvWhen fresh s) (hw : NoAddAfterWrap fresh s ops) :
    JidsUnique (runOps s ops).jobs := by
  induction ops generalizing fresh s with
  | nil => exact h.1
  | cons op ops ih =>
    cases op with
    | add pid state cmdline =>
      unfold NoAddAfterWrap at hw
      by_cases h1 : (addjob s pid state cmdline).1 = 1
      · rw [if_pos h1] at hw
        exact ih _ _ (jidInvWhen_addjob fresh s pid state cmdline h h1 hw.1) hw.2
      · rw [if_neg h1] at hw
        obtain ⟨hj, hn⟩ := addjob_failed s pid state cmdline h1
        have hinv : JidInvWhen fresh (addjob s pid state cmdline).2 :=
          ⟨by rw [hj]; exact h.1, fun hf => by rw [hj, hn]; exact h.2 hf⟩
        exact ih fresh _ hinv hw
    | del pid =>
      exact ih _ _ (jidInvWhen_deletejob fresh s pid h) hw

/-- C1, as the claim states it, fails: after fifteen registrations, one removal
and two more registrations from the initial table, slots 0 and 15 both hold
jid 1. -/
theorem jid_collision_after_wrap :
    (runOps (initShell 0) wrapOps).jobs.map (fun j => j.jid) =
        [1, 16, 3, 4, 5, 6, 7, 8, 9, 10, 11, 12, 13, 14, 15, 1] ∧
      ¬ JidsUnique (runOps (initShell 0) wrapOps).jobs := by
  decide

/-- C1 (amended): for every sequence of `addjob` and `deletejob` calls applied
to a table produced by `initjobs` with `nextjid = 1`, in which no `addjob`
finds a free slot after the counter has wrapped to 1 unless a `deletejob` has
succeeded in between, no two slots of the resulting table hold the same
nonzero jid.  Runs that fill the table, and so wrap the counter, are among
them. -/
theorem jids_unique_until_add_after_wrap (tbl : List job_t) (v : Int) (o : List Char)
    (ops : List JobOp)
    (hw : NoAddAfterWrap true { jobs := initjobs tbl, nextjid := 1, verbose := v, out := o }
      ops) :
    JidsUnique (runOps { jobs := initjobs tbl, nextjid := 1, verbose := v, out := o } ops).jobs :=
  jidInvWhen_runOps ops true _ ⟨(jidInv_init tbl v o).1, fun _ => (jidInv_init tbl v o).2⟩ hw

theorem jids_unique_until_add_after_wrap_witness :
    NoAddAfterWrap true { jobs := initjobs jobs0, nextjid := 1, verbose := 0, out := [] }
        (fillOps ++ [.del 103, .add 117 BG [], .del 101, .add 118 BG []]) ∧
      JidsUnique (runOps { jobs := initjobs jobs0, nextjid := 1, verbose := 0, out := [] }
        (fillOps ++ [.del 103, .add 117 BG [], .del 101, .add 118 BG []])).jobs :=
  ⟨by decide, jids_unique_until_add_after_wrap jobs0 0 [] _ (by decide)⟩

/-- The run of the witness wraps the counter twice, and the run of the
counterexample is one with an `addjob` right after a wrap. -/
theorem wrap_runs_example :
    (runOps (initShell 0) fillOps).nextjid = 1 ∧
    (runOps (initShell 0)
        (fillOps ++ [.del 103, .add 117 BG [], .del 101, .add 118 BG []])).jobs.map
      (fun j => j.jid) = [18, 2, 17, 4, 5, 6, 7, 8, 9, 10, 11, 12, 13, 14, 15, 16] ∧
    ¬ NoAddAfterWrap true (initShell 0) wrapOps := by
  decide

/-! ## At most one foreground job -/

theorem fgInv_init (tbl : List job_t) (n v : Int) (o : List Char) :
    FgInv { jobs := initjobs tbl, nextjid := n, verbose := v, out := o } := by
  have hst : ∀ j ∈ initjobs tbl, j.state ≠ FG := by
    intro j hj
    simp only [initjobs, List.mem_map] at hj
    obtain ⟨_, _, rfl⟩ := hj
    simp [clearjob, UNDEF, FG]
  constructor
  · show List.Pairwise _ (initjobs tbl)
    exact List.pairwise_of_forall_mem_list (fun a ha _ _ h => hst a ha h.1)
  · exact fun j hj _ => hst j hj

theorem fgInv_addjob (s : Shell) (pid state : Int) (cmdline : List Char) (h : FgInv s)
    (hd : state = FG → ∀ j ∈ s.jobs, j.state ≠ FG) :
    FgInv (addjob s pid state cmdline).2 := by
  unfold addjob
  by_cases hp : pid < 1
  · simpa [hp] using h
  · cases hl : addjobLoop pid state s.nextjid cmdline s.jobs with
    | none => simpa [hp, hl] using h
    | some l1 =>
      simp only [hp, hl, if_false]
      obtain ⟨pre, j, post, h1, _, _, h4⟩ := addjobLoop_some_split _ _ _ _ _ _ hl
      obtain ⟨hu, hb⟩ := h
      unfold FgInv AtMostOneFG at *
      simp only
      rw [h1] at hu hb hd
      subst h4
      rw [List.pairwise_append, List.pairwise_cons] at hu ⊢
      obtain ⟨hu1, ⟨_, hu2⟩, hu3⟩ := hu
      refine ⟨⟨hu1, ⟨?_, hu2⟩, ?_⟩, ?_⟩
      · intro b hb1 hEq
        exact hd hEq.1 b (by simp [hb1]) hEq.2
      · intro a ha b hb1
        rcases List.mem_cons.1 hb1 with rfl | hb2
        · intro hEq
          exact hd hEq.2 a (by simp [ha]) hEq.1
        · exact hu3 a ha b (List.mem_cons_of_mem _ hb2)
      · intro x hx
        rcases List.mem_append.1 hx with hx | hx
        · exact hb x (by simp [hx])
        · rcases List.mem_cons.1 hx with rfl | hx
          · intro h0
            simp only at h0
            omega
          · exact hb x (by simp [hx])

theorem fgInv_deletejob (s : Shell) (pid : Int) (h : FgInv s) :
    FgInv (deletejob s pid).2 := by
  unfold deletejob
  by_cases hp : pid < 1
  · simpa [hp] using h
  · cases hl : deletejobLoop pid s.jobs with
    | none => simpa [hp, hl] using h
    | some l1 =>
      simp only [hp, hl, if_false]
      obtain ⟨pre, j, post, h1, _, _, h4⟩ := deletejobLoop_some_split _ _ _ hl
      obtain ⟨hu, hb⟩ := h
      unfold FgInv AtMostOneFG at *
      simp only
      rw [h1] at hu hb
      subst h4
      rw [List.pairwise_append, List.pairwise_cons] at hu ⊢
      obtain ⟨hu1, ⟨_, hu2⟩, hu3⟩ := hu
      have hc : (clearjob j).state ≠ FG := by simp [clearjob, UNDEF, FG]
      refine ⟨⟨hu1, ⟨fun _ _ hEq => hc hEq.1, hu2⟩, ?_⟩, ?_⟩
      · intro a ha b hb1
        rcases List.mem_cons.1 hb1 with rfl | hb2
        · exact fun hEq => hc hEq.2
        · exact hu3 a ha b (List.mem_cons_of_mem _ hb2)
      · intro x hx
        rcases List.mem_append.1 hx with hx | hx
        · exact hb x (by simp [hx])
        · rcases List.mem_cons.1 hx with rfl | hx
          · exact fun _ => hc
          · exact hb x (by simp [hx])

theorem fgInv_runOps (ops : List JobOp) (s : Shell) (h : FgInv s) (hd : FgDiscipline s ops) :
    FgInv (runOps s ops) := by
  induction ops generalizing s with
  | nil => exact h
  | cons op ops ih =>
    cases op with
    | add pid state cmdline =>
      exact ih _ (fgInv_addjob s pid state cmdline h hd.1) hd.2
    | del pid =>
      exact ih _ (fgInv_deletejob s pid h) hd

/-- C2, as the claim states it, fails: `addjob` stores whatever state it is
given, so two calls with state `FG` on the initial table leave slots 0 and 1
both in state `FG`. -/
theorem two_foreground_jobs :
    ((runOps (initShell 0) [.add 101 FG [], .add 102 FG []]).jobs.take 2).map
        (fun j => (j.pid, j.state)) = [(101, FG), (102, FG)] ∧
      ¬ AtMostOneFG (runOps (initShell 0) [.add 101 FG [], .add 102 FG []]).jobs := by
  decide

/-- C2 (amended): for every sequence of `addjob` and `deletejob` calls applied
to a table produced by `initjobs`, in which `addjob` is called with state `FG`
only while no slot is in state `FG`, the resulting table has no two slots whose
state is `FG`. -/
theorem at_most_one_fg_under_discipline (tbl : List job_t) (n v : Int) (o : List Char)
    (ops : List JobOp)
    (hd : FgDiscipline { jobs := initjobs tbl, nextjid := n, verbose := v, out := o } ops) :
    AtMostOneFG (runOps { jobs := initjobs tbl, nextjid := n, verbose := v, out := o } ops).jobs :=
  (fgInv_runOps ops _ (fgInv_init tbl n v o) hd).1

theorem at_most_one_fg_under_discipline_witness :
    FgDiscipline { jobs := initjobs jobs0, nextjid := 1, verbose := 0, out := [] }
        [.add 101 FG [], .add 102 BG [], .del 101, .add 103 FG []] ∧
      AtMostOneFG (runOps { jobs := initjobs jobs0, nextjid := 1, verbose := 0, out := [] }
        [.add 101 FG [], .add 102 BG [], .del 101, .add 103 FG []]).jobs :=
  ⟨by decide, at_most_one_fg_under_discipline jobs0 1 0 [] _ (by decide)⟩

/-! ## Contracts of `addjob` and `deletejob` -/

theorem getElem?_split_at {α : Type} (pre : List α) (j : α) (post : List α) :
    (pre ++ j :: post)[pre.length]? = some j := by
  rw [List.getElem?_append_right (le_refl _)]
  simp

theorem getElem?_split_before {α : Type} (pre : List α) (j : α) (post : List α) (k : Nat)
    (x : α) (hk : k < pre.length) (hx : (pre ++ j :: post)[k]? = some x) : x ∈ pre := by
  rw [List.getElem?_append_left hk] at hx
  exact List.getElem?_mem hx

theorem set_split_at {α : Type} (pre : List α) (j x : α) (post : List α) :
    (pre ++ j :: post).set pre.length x = pre ++ x :: post := by
  induction pre with
  | nil => rfl
  | cons a pre ih => simp [ih]

/-- C3: `addjob` returns 0 exactly when `pid < 1` or no slot has pid 0; when it
returns 0 the slots and `nextjid` are unchanged; and when the table is full
(`pid >= 1`, no slot with pid 0) what it prints is exactly
"Tried to create too many jobs\n". -/
theorem addjob_fails_iff_and_atomic (s : Shell) (pid state : Int) (cmdline : List Char) :
    ((addjob s pid state cmdline).1 = 0 ↔ (pid < 1 ∨ ∀ j ∈ s.jobs, j.pid ≠ 0)) ∧
    ((addjob s pid state cmdline).1 = 0 →
      (addjob s pid state cmdline).2.jobs = s.jobs ∧
      (addjob s pid state cmdline).2.nextjid = s.nextjid) ∧
    (1 ≤ pid → (∀ j ∈ s.jobs, j.pid ≠ 0) →
      (addjob s pid state cmdline).2.out =
        s.out ++ "Tried to create too many jobs\n".toList) := by
  unfold addjob
  by_cases hp : pid < 1
  · simp only [hp, if_true, true_or, true_iff, implies_true, true_and]
    exact fun h => absurd h (by omega)
  · cases hl : addjobLoop pid state s.nextjid cmdline s.jobs with
    | none =>
      have hn := (addjobLoop_none_iff _ _ _ _ _).1 hl
      simp only [hp, if_false, false_or, true_iff, implies_true, and_self, true_and]
      exact ⟨hn, trivial⟩
    | some l1 =>
      have hn : ¬ ∀ j ∈ s.jobs, j.pid ≠ 0 := by
        intro h
        rw [(addjobLoop_none_iff pid state s.nextjid cmdline s.jobs).2 h] at hl
        cases hl
      simp only [hp, if_false, false_or, one_ne_zero, false_iff, false_implies, true_and]
      exact ⟨hn, fun _ h => absurd h hn⟩

/-- C4: on a table with a free slot and for `pid >= 1`, `addjob` returns 1,
writes `(pid, state, jid = old nextjid, cmdline)` into the lowest-indexed slot
whose pid is 0 and into no other slot, and sets `nextjid` to the old value plus
one when that is at most `MAXJOBS`, to 1 otherwise. -/
theorem addjob_success_effect (s : Shell) (pid state : Int) (cmdline : List Char)
    (hp : 1 ≤ pid) (hfree : ∃ j ∈ s.jobs, j.pid = 0) :
    ∃ i j, s.jobs[i]? = some j ∧ j.pid = 0 ∧
      (∀ k x, k < i → s.jobs[k]? = some x → x.pid ≠ 0) ∧
      (addjob s pid state cmdline).1 = 1 ∧
      (addjob s pid state cmdline).2.jobs =
        s.jobs.set i { pid := pid, jid := s.nextjid, state := state, cmdline := cmdline } ∧
      (addjob s pid state cmdline).2.nextjid =
        (if s.nextjid + 1 ≤ (MAXJOBS : Int) then s.nextjid + 1 else 1) := by
  unfold addjob
  have hp1 : ¬ pid < 1 := by omega
  cases hl : addjobLoop pid state s.nextjid cmdline s.jobs with
  | none =>
    obtain ⟨j, hj, hj0⟩ := hfree
    exact absurd hj0 ((addjobLoop_none_iff _ _ _ _ _).1 hl j hj)
  | some l1 =>
    obtain ⟨pre, j, post, h1, h2, h3, h4⟩ := addjobLoop_some_split _ _ _ _ _ _ hl
    refine ⟨pre.length, j, ?_, h2, ?_, ?_, ?_, ?_⟩
    · rw [h1]; exact getElem?_split_at pre j post
    · intro k x hk hx
      rw [h1] at hx
      exact h3 x (getElem?_split_before pre j post k x hk hx)
    · simp [hp1]
    · simp only [hp1, if_false]
      rw [h4, h1, set_split_at]
    · simp only [hp1, if_false]
      by_cases hc : s.nextjid + 1 ≤ (MAXJOBS : Int)
      · rw [if_pos hc, if_neg (by omega)]
      · rw [if_neg hc, if_pos (by omega)]

theorem addjob_success_effect_witness :
    ∃ i j, (initShell 0).jobs[i]? = some j ∧ j.pid = 0 ∧
      (∀ k x, k < i → (initShell 0).jobs[k]? = some x → x.pid ≠ 0) ∧
      (addjob (initShell 0) 101 BG "ls &\n".toList).1 = 1 ∧
      (addjob (initShell 0) 101 BG "ls &\n".toList).2.jobs =
        (initShell 0).jobs.set i
          { pid := 101, jid := (initShell 0).nextjid, state := BG,
            cmdline := "ls &\n".toList } ∧
      (addjob (initShell 0) 101 BG "ls &\n".toList).2.nextjid =
        (if (initShell 0).nextjid + 1 ≤ (MAXJOBS : Int) then (initShell 0).nextjid + 1 else 1) :=
  addjob_success_effect (initShell 0) 101 BG "ls &\n".toList (by decide)
    ⟨{ pid := 0, jid := 0, state := UNDEF, cmdline := [] }, by decide, rfl⟩

/-- C5: if `pid < 1` or no slot has that pid, `deletejob` returns 0 and changes
nothing.  Otherwise it returns 1, resets the lowest-indexed slot with that pid
to the free state (pid 0, jid 0, state `UNDEF`, empty command line) and touches
no other slot, and sets `nextjid` to one more than the maximum jid over the
slots of the table it leaves, which is 1 when every slot is then free. -/
theorem deletejob_contract (s : Shell) (pid : Int) :
    ((pid < 1 ∨ ∀ j ∈ s.jobs, j.pid ≠ pid) → deletejob s pid = (0, s)) ∧
    (1 ≤ pid → (∃ j ∈ s.jobs, j.pid = pid) →
      ∃ i j m, s.jobs[i]? = some j ∧ j.pid = pid ∧
        (∀ k x, k < i → s.jobs[k]? = some x → x.pid ≠ pid) ∧
        (deletejob s pid).1 = 1 ∧
        (deletejob s pid).2.jobs =
          s.jobs.set i { pid := 0, jid := 0, state := UNDEF, cmdline := [] } ∧
        (∀ x ∈ (deletejob s pid).2.jobs, x.jid ≤ m) ∧
        (∃ x ∈ (deletejob s pid).2.jobs, x.jid = m) ∧
        (deletejob s pid).2.nextjid = m + 1 ∧
        ((∀ x ∈ (deletejob s pid).2.jobs,
            x = { pid := 0, jid := 0, state := UNDEF, cmdline := [] }) →
          (deletejob s pid).2.nextjid = 1)) := by
  unfold deletejob
  constructor
  · rintro (hp | hn)
    · simp [hp]
    · by_cases hp : pid < 1
      · simp [hp]
      · simp [hp, (deletejobLoop_none_iff pid s.jobs).2 hn]
  · intro hp hex
    have hp1 : ¬ pid < 1 := by omega
    cases hl : deletejobLoop pid s.jobs with
    | none =>
      obtain ⟨j, hj, hj0⟩ := hex
      exact absurd hj0 ((deletejobLoop_none_iff _ _).1 hl j hj)
    | some l1 =>
      obtain ⟨pre, j, post, h1, h2, h3, h4⟩ := deletejobLoop_some_split _ _ _ hl
      have hmem : clearjob j ∈ l1 := by rw [h4]; simp
      refine ⟨pre.length, j, maxjid l1, ?_, h2, ?_, ?_, ?_, ?_, ?_, ?_, ?_⟩
      · rw [h1]; exact getElem?_split_at pre j post
      · intro k x hk hx
        rw [h1] at hx
        exact h3 x (getElem?_split_before pre j post k x hk hx)
      · simp [hp1]
      · simp only [hp1, if_false]
        rw [h4, h1, set_split_at]
        rfl
      · simp only [hp1, if_false]
        exact maxjidLoop_ge_mem l1 0
      · simp only [hp1, if_false]
        rcases maxjidLoop_attained l1 0 with h0 | h0
        · exact ⟨clearjob j, hmem, by rw [maxjid, h0]; rfl⟩
        · exact h0
      · simp [hp1]
      · simp only [hp1, if_false]
        intro hall
        rcases maxjidLoop_attained l1 0 with h0 | ⟨x, hx, hxe⟩
        · rw [maxjid, h0]; rfl
        · rw [maxjid, ← hxe, hall x hx]; rfl

theorem deletejob_contract_example :
    deletejob (addjob (initShell 0) 101 BG "ls &\n".toList).2 101 = (1, initShell 0) := by
  decide

/-! ## The child-notification handler -/

theorem exists_first_pid (pid : Int) (l : List job_t) (h : ∃ j ∈ l, j.pid = pid) :
    ∃ pre j post, l = pre ++ j :: post ∧ j.pid = pid ∧ ∀ x ∈ pre, x.pid ≠ pid := by
  induction l with
  | nil => simp at h
  | cons x rest ih =>
    by_cases hx : x.pid = pid
    · exact ⟨[], x, rest, rfl, hx, by simp⟩
    · obtain ⟨j, hj, hjp⟩ := h
      rcases List.mem_cons.1 hj with rfl | hj
      · exact absurd hjp hx
      · obtain ⟨pre, j1, post, h1, h2, h3⟩ := ih ⟨j, hj, hjp⟩
        refine ⟨x :: pre, j1, post, by simp [h1], h2, ?_⟩
        intro y hy
        rcases List.mem_cons.1 hy with rfl | hy
        · exact hx
        · exact h3 y hy

theorem findpid_split (pid : Int) (pre : List job_t) (j : job_t) (post : List job_t)
    (hj : j.pid = pid) (hpre : ∀ x ∈ pre, x.pid ≠ pid) :
    findpid pid (pre ++ j :: post) = some pre.length := by
  induction pre with
  | nil => simp [findpid, hj]
  | cons a pre ih =>
    have ha : a.pid ≠ pid := hpre a (List.mem_cons_self _ _)
    have := ih (fun x hx => hpre x (List.mem_cons_of_mem _ hx))
    simp [findpid, ha, this]

theorem pid2jidLoop_split (pid : Int) (pre : List job_t) (j : job_t) (post : List job_t)
    (hj : j.pid = pid) (hpre : ∀ x ∈ pre, x.pid ≠ pid) :
    pid2jidLoop pid (pre ++ j :: post) = j.jid := by
  induction pre with
  | nil => simp [pid2jidLoop, hj]
  | cons a pre ih =>
    have ha : a.pid ≠ pid := hpre a (List.mem_cons_self _ _)
    have := ih (fun x hx => hpre x (List.mem_cons_of_mem _ hx))
    simp [pid2jidLoop, ha, this]

theorem deletejobLoop_split (pid : Int) (pre : List job_t) (j : job_t) (post : List job_t)
    (hj : j.pid = pid) (hpre : ∀ x ∈ pre, x.pid ≠ pid) :
    deletejobLoop pid (pre ++ j :: post) = some (pre ++ clearjob j :: post) := by
  induction pre with
  | nil => simp [deletejobLoop, hj]
  | cons a pre ih =>
    have ha : a.pid ≠ pid := hpre a (List.mem_cons_self _ _)
    have := ih (fun x hx => hpre x (List.mem_cons_of_mem _ hx))
    simp [deletejobLoop, ha, this]

theorem setStateAt_split (state : Int) (pre : List job_t) (j : job_t) (post : List job_t) :
    setStateAt pre.length state (pre ++ j :: post) = pre ++ { j with state := state } :: post := by
  induction pre with
  | nil => rfl
  | cons a pre ih => simp [setStateAt, ih]

/-- The body of the handler's loop: when `waitpid` reports a change for a pid
`> 0` that is registered in the table, it
(a) on a stop by signal `N` sets the state of that pid's slot to `ST`, keeps
its other fields, and writes "Job [jid] (pid) stopped by signal N\n";
(b) on termination by signal `N` writes
"Job [jid] (pid) terminated by signal N\n", with the jid the slot had, and
resets the slot to the free state;
(c) on normal exit resets the slot and writes nothing.
The slot is the lowest-indexed one with that pid, no other slot changes, and
the numbers are rendered by `sio_itos`, the handler's own conversion. -/
theorem sigchld_body_effect (s : Shell) (pid N code : Int) (hp : 0 < pid)
    (hreg : ∃ j ∈ s.jobs, j.pid = pid) :
    ∃ i j, s.jobs[i]? = some j ∧ j.pid = pid ∧
      (∀ k x, k < i → s.jobs[k]? = some x → x.pid ≠ pid) ∧
      (∃ s1, sigchld_body s pid (.stopped N) = some s1 ∧
        s1.jobs = s.jobs.set i { j with state := ST } ∧
        s1.out = s.out ++ ("Job [".toList ++ sio_itos j.jid ++ "] (".toList ++ sio_itos pid
          ++ ") stopped by signal ".toList ++ sio_itos N ++ "\n".toList)) ∧
      (∃ s2, sigchld_body s pid (.signaled N) = some s2 ∧
        s2.jobs = s.jobs.set i { pid := 0, jid := 0, state := UNDEF, cmdline := [] } ∧
        s2.out = s.out ++ ("Job [".toList ++ sio_itos j.jid ++ "] (".toList ++ sio_itos pid
          ++ ") terminated by signal ".toList ++ sio_itos N ++ "\n".toList)) ∧
      (∃ s3, sigchld_body s pid (.exited code) = some s3 ∧
        s3.jobs = s.jobs.set i { pid := 0, jid := 0, state := UNDEF, cmdline := [] } ∧
        s3.out = s.out) := by
  obtain ⟨pre, j, post, h1, h2, h3⟩ := exists_first_pid pid s.jobs hreg
  have hp1 : ¬ pid < 1 := by omega
  have hfind := findpid_split pid pre j post h2 h3
  have hjid := pid2jidLoop_split pid pre j post h2 h3
  have hdel := deletejobLoop_split pid pre j post h2 h3
  refine ⟨pre.length, j, ?_, h2, ?_, ?_, ?_, ?_⟩
  · rw [h1]; exact getElem?_split_at pre j post
  · intro k x hk hx
    rw [h1] at hx
    exact h3 x (getElem?_split_before pre j post k x hk hx)
  · simp only [sigchld_body, hp, if_true, sio_write_int, sio_write_string, getjobpid, pid2jid,
      hp1, if_false, h1, hfind, hjid]
    refine ⟨_, rfl, ?_, ?_⟩
    · simp only [setStateAt_split, set_split_at]
    · simp only [List.append_assoc]
  · simp only [sigchld_body, hp, if_true, sio_write_int, sio_write_string, pid2jid, deletejob,
      hp1, if_false, h1, hjid, hdel]
    refine ⟨_, rfl, ?_, ?_⟩
    · simp only [set_split_at]; rfl
    · simp only [List.append_assoc]
  · simp only [sigchld_body, hp, if_true, deletejob, hp1, if_false, h1, hdel]
    refine ⟨_, rfl, ?_, rfl⟩
    simp only [set_split_at]; rfl

theorem sigchld_body_effect_witness :
    ∃ i j, (addjob (initShell 0) 22203 FG "sleep 100\n".toList).2.jobs[i]? = some j ∧
      j.pid = 22203 ∧
      (∀ k x, k < i → (addjob (initShell 0) 22203 FG "sleep 100\n".toList).2.jobs[k]? = some x →
        x.pid ≠ 22203) ∧
      (∃ s1, sigchld_body (addjob (initShell 0) 22203 FG "sleep 100\n".toList).2 22203
          (.stopped 20) = some s1 ∧
        s1.jobs = (addjob (initShell 0) 22203 FG "sleep 100\n".toList).2.jobs.set i
          { j with state := ST } ∧
        s1.out = (addjob (initShell 0) 22203 FG "sleep 100\n".toList).2.out ++
          ("Job [".toList ++ sio_itos j.jid ++ "] (".toList ++ sio_itos 22203
            ++ ") stopped by signal ".toList ++ sio_itos 20 ++ "\n".toList)) ∧
      (∃ s2, sigchld_body (addjob (initShell 0) 22203 FG "sleep 100\n".toList).2 22203
          (.signaled 20) = some s2 ∧
        s2.jobs = (addjob (initShell 0) 22203 FG "sleep 100\n".toList).2.jobs.set i
          { pid := 0, jid := 0, state := UNDEF, cmdline := [] } ∧
        s2.out = (addjob (initShell 0) 22203 FG "sleep 100\n".toList).2.out ++
          ("Job [".toList ++ sio_itos j.jid ++ "] (".toList ++ sio_itos 22203
            ++ ") terminated by signal ".toList ++ sio_itos 20 ++ "\n".toList)) ∧
      (∃ s3, sigchld_body (addjob (initShell 0) 22203 FG "sleep 100\n".toList).2 22203
          (.exited 0) = some s3 ∧
        s3.jobs = (addjob (initShell 0) 22203 FG "sleep 100\n".toList).2.jobs.set i
          { pid := 0, jid := 0, state := UNDEF, cmdline := [] } ∧
        s3.out = (addjob (initShell 0) 22203 FG "sleep 100\n".toList).2.out) :=
  sigchld_body_effect (addjob (initShell 0) 22203 FG "sleep 100\n".toList).2 22203 20 0
    (by decide)
    ⟨{ pid := 22203, jid := 1, state := FG, cmdline := "sleep 100\n".toList }, by decide, rfl⟩

/-- The stop scenario of the specification: `sleep 100` is the foreground job
with pid 22203 and is stopped by signal 20. -/
theorem sigchld_stop_example :
    (sigchld_body (addjob (initShell 0) 22203 FG "sleep 100\n".toList).2 22203
        (.stopped 20)).map (fun s => (s.out, s.jobs.head?, fgpid s.jobs)) =
      some ("Job [1] (22203) stopped by signal 20\n".toList,
        some { pid := 22203, jid := 1, state := ST, cmdline := "sleep 100\n".toList }, 0) := by
  decide

/-! ## The command-line parser -/

theorem strchrFrom_lt (c : Char) (l : List Char) (k : Nat) (h : strchrFrom c l = some k) :
    k < l.length := by
  induction l generalizing k with
  | nil => simp [strchrFrom] at h
  | cons x rest ih =>
    simp only [strchrFrom] at h
    split at h
    · cases h; simp
    · split at h
      · cases h
      · simp only [Option.map_eq_some'] at h
        obtain ⟨k1, hk1, rfl⟩ := h
        have := ih k1 hk1
        simp only [List.length_cons]
        omega

theorem strchr_bounds (buf : List Char) (i : Nat) (c : Char) (d : Nat)
    (h : strchr buf i c = some d) : i ≤ d ∧ d < buf.length := by
  simp only [strchr, Option.map_eq_some'] at h
  obtain ⟨k, hk, rfl⟩ := h
  have := strchrFrom_lt c _ k hk
  simp only [List.length_drop] at this
  omega

theorem findDelim_bounds (buf : List Char) (pos d : Nat) (h : (findDelim buf pos).2 = some d) :
    pos ≤ d ∧ d < buf.length := by
  unfold findDelim at h
  split at h
  · have := strchr_bounds _ _ _ _ h
    omega
  · exact strchr_bounds _ _ _ _ h

theorem parseLoop_total (fuel : Nat) (buf : List Char) (pos : Nat) (delim : Option Nat)
    (argv : List Nat) (h : ∀ d, delim = some d → d < buf.length ∧ buf.length ≤ fuel + d) :
    ∃ r, parseLoop fuel buf pos delim argv = some r := by
  induction fuel generalizing buf pos delim argv with
  | zero =>
    cases delim with
    | none => exact ⟨(buf, argv), by simp [parseLoop]⟩
    | some d => have := h d rfl; omega
  | succ fuel ih =>
    cases delim with
    | none => exact ⟨(buf, argv), by simp [parseLoop]⟩
    | some d =>
      simp only [parseLoop]
      apply ih
      intro d1 hd1
      have h1 := findDelim_bounds _ _ _ hd1
      have h2 := h d rfl
      simp only [List.length_set] at h1 ⊢
      have h3 : d + 1 ≤ skipSpaces (buf.set d NUL) (d + 1) := by simp [skipSpaces]
      omega

theorem cstrAt_zero_append_nul (w r : List Char) (hw : NUL ∉ w) :
    cstrAt (w ++ NUL :: r) 0 = w := by
  simp only [cstrAt, List.drop_zero]
  rw [List.takeWhile_append_of_pos]
  · simp
  · intro a ha
    have : a ≠ NUL := fun h => hw (h ▸ ha)
    simpa using this

theorem cstrAt_zero_nul_free (buf : List Char) : NUL ∉ cstrAt buf 0 := by
  intro h
  simp only [cstrAt, List.drop_zero] at h
  have := List.mem_takeWhile_imp h
  simp at this

theorem cstrAt_zero_of_nul_free (w : List Char) (hw : NUL ∉ w) : cstrAt w 0 = w := by
  simp only [cstrAt, List.drop_zero, List.takeWhile_eq_self_iff]
  intro a ha
  have : a ≠ NUL := fun h => hw (h ▸ ha)
  simpa using this

theorem parseline_split_total (cmdline : List Char) (h : cstrAt cmdline 0 ≠ []) :
    ∃ r, parseline_split cmdline = some r := by
  unfold parseline_split
  have hlen : strlen (cstrAt cmdline 0 ++ [NUL]) = (cstrAt cmdline 0).length := by
    unfold strlen
    rw [cstrAt_zero_append_nul _ _ (cstrAt_zero_nul_free cmdline)]
  have hpos : (cstrAt cmdline 0).length ≠ 0 := by
    simpa [List.length_eq_zero] using h
  simp only [hlen, hpos, if_false]
  apply parseLoop_total
  intro d hd
  have := findDelim_bounds _ _ _ hd
  omega

theorem peek_eq_iff_cstrAt (buf : List Char) (i : Nat) (c : Char) (hc : c ≠ NUL) :
    peek buf i = c ↔ ∃ w, cstrAt buf i = c :: w := by
  unfold peek cstrAt
  rw [List.getD_eq_getElem?_getD, ← List.head?_drop]
  cases buf.drop i with
  | nil =>
    simp only [List.head?_nil, Option.getD_none, List.takeWhile_nil]
    constructor
    · intro h; exact absurd h.symm hc
    · rintro ⟨w, hw⟩; cases hw
  | cons x rest =>
    simp only [List.head?_cons, Option.getD_some, List.takeWhile_cons]
    constructor
    · rintro rfl
      simp [hc]
    · rintro ⟨w, hw⟩
      split at hw
      · simp only [List.cons.injEq] at hw; exact hw.1
      · cases hw

/-- The test for a background job, relative to the strings that the loop of
`parseline` has stored: on every newline-terminated command line `parseline`
returns, and when the loop has stored at least one string it returns 1 if and
only if the last of them begins with the character '&'; in that case argv holds
the strings without the last one, and otherwise the return value is 0 and argv
holds them all. -/
theorem parseline_flag_of_split (line : List Char) (hnul : NUL ∉ line) :
    ∃ toks p, parseline_tokens (line ++ ['\n']) = some toks ∧
      parseline (line ++ ['\n']) = some p ∧
      (toks ≠ [] →
        (p.ret = 1 ↔ ∃ w, toks.getLast? = some ('&' :: w)) ∧
        (p.ret = 1 → p.args = toks.dropLast) ∧
        (p.ret ≠ 1 → p.ret = 0 ∧ p.args = toks)) := by
  have hne : cstrAt (line ++ ['\n']) 0 ≠ [] := by
    rw [cstrAt_zero_of_nul_free]
    · simp
    · intro h
      rcases List.mem_append.1 h with h | h
      · exact hnul h
      · simp [NUL] at h
  obtain ⟨⟨buf, argv⟩, hr⟩ := parseline_split_total (line ++ ['\n']) hne
  have hamp : '&' ≠ NUL := by decide
  refine ⟨argv.map (cstrAt buf), ?_⟩
  simp only [parseline_tokens, parseline, hr, Option.map_some', true_and]
  cases hlast : argv.getLast? with
  | none =>
    refine ⟨_, rfl, ?_⟩
    intro hne1
    rw [List.getLast?_eq_none_iff] at hlast
    simp [hlast] at hne1
  | some last =>
    simp only
    by_cases hpk : peek buf last = '&'
    · simp only [hpk, if_true]
      refine ⟨_, rfl, fun _ => ⟨?_, ?_, ?_⟩⟩
      · simp only [true_iff, List.getLast?_map, hlast, Option.map_some', Option.some.injEq]
        exact (peek_eq_iff_cstrAt buf last '&' hamp).1 hpk
      · intro _
        simp [Parsed.args]
      · intro h; exact absurd rfl h
    · simp only [hpk, if_false]
      refine ⟨_, rfl, fun _ => ⟨?_, ?_, ?_⟩⟩
      · simp only [List.getLast?_map, hlast, Option.map_some', Option.some.injEq]
        constructor
        · intro h; cases h
        · intro h
          exact absurd ((peek_eq_iff_cstrAt buf last '&' hamp).2 h) hpk
      · intro h; cases h
      · intro _
        exact ⟨rfl, rfl⟩

theorem parseline_flag_of_split_witness :
    NUL ∉ "sleep 5 &".toList ∧
    ∃ toks p, parseline_tokens ("sleep 5 &".toList ++ ['\n']) = some toks ∧
      parseline ("sleep 5 &".toList ++ ['\n']) = some p ∧
      (toks ≠ [] →
        (p.ret = 1 ↔ ∃ w, toks.getLast? = some ('&' :: w)) ∧
        (p.ret = 1 → p.args = toks.dropLast) ∧
        (p.ret ≠ 1 → p.ret = 0 ∧ p.args = toks)) :=
  ⟨by decide, parseline_flag_of_split "sleep 5 &".toList (by decide)⟩

/-- The two lines of the specification's scenarios, parsed. -/
theorem parseline_examples :
    (parseline "sleep 5 &\n".toList).map (fun p => (p.ret, p.args)) =
        some (1, ["sleep".toList, "5".toList]) ∧
      (parseline "sleep 100\n".toList).map (fun p => (p.ret, p.args)) =
        some (0, ["sleep".toList, "100".toList]) := by
  decide

/-! ## Tokenization -/

theorem strchrFrom_append (c : Char) (w r : List Char) (hc : c ∉ w) (hn : NUL ∉ w) :
    strchrFrom c (w ++ c :: r) = some w.length := by
  induction w with
  | nil => simp [strchrFrom]
  | cons x w ih =>
    have hx : x ≠ c := fun h => hc (by simp [h])
    have hx0 : x ≠ NUL := fun h => hn (by simp [h])
    have := ih (fun h => hc (List.mem_cons_of_mem _ h)) (fun h => hn (List.mem_cons_of_mem _ h))
    simp [strchrFrom, hx, hx0, this]

theorem strchr_split (A w r : List Char) (c : Char) (hc : c ∉ w) (hn : NUL ∉ w) :
    strchr (A ++ (w ++ c :: r)) A.length c = some (A.length + w.length) := by
  simp only [strchr, List.drop_left, strchrFrom_append c w r hc hn, Option.map_some',
    Option.some.injEq]
  omega

theorem countSpaces_replicate (k : Nat) (R : List Char) (hR : R.head? ≠ some ' ') :
    countSpaces (List.replicate k ' ' ++ R) = k := by
  induction k with
  | zero =>
    cases R with
    | nil => rfl
    | cons x R =>
      have hx : x ≠ ' ' := fun h => hR (by simp [h])
      simp [countSpaces, hx]
  | succ k ih =>
    have hsp : ' ' ≠ NUL := by decide
    simp [List.replicate_succ, countSpaces, ih, hsp]

theorem skipSpaces_split (A R : List Char) (k : Nat) (hR : R.head? ≠ some ' ') :
    skipSpaces (A ++ (List.replicate k ' ' ++ R)) A.length = A.length + k := by
  simp only [skipSpaces, List.drop_left, countSpaces_replicate k R hR]

theorem peek_split (A : List Char) (x : Char) (r : List Char) :
    peek (A ++ x :: r) A.length = x := by
  simp only [peek, List.getD_eq_getElem?_getD, getElem?_split_at, Option.getD_some]

theorem cstrAt_split (A w r : List Char) (hw : NUL ∉ w) :
    cstrAt (A ++ (w ++ NUL :: r)) A.length = w := by
  have := cstrAt_zero_append_nul w r hw
  simp only [cstrAt, List.drop_zero, List.drop_left] at this ⊢
  exact this

/-- One iteration of the loop of `parseline` on an argument `w` that starts at
offset `A.length` and ends at the delimiter `c`, followed by `k` spaces. -/
theorem parseLoop_step (fuel : Nat) (A w : List Char) (c : Char) (k : Nat) (R : List Char)
    (argv : List Nat) (hR : R.head? ≠ some ' ') :
    parseLoop (fuel + 1) (A ++ (w ++ c :: (List.replicate k ' ' ++ R))) A.length
        (some (A.length + w.length)) argv =
      parseLoop fuel ((A ++ (w ++ NUL :: List.replicate k ' ')) ++ R)
        (findDelim ((A ++ (w ++ NUL :: List.replicate k ' ')) ++ R)
          (A ++ (w ++ NUL :: List.replicate k ' ')).length).1
        (findDelim ((A ++ (w ++ NUL :: List.replicate k ' ')) ++ R)
          (A ++ (w ++ NUL :: List.replicate k ' ')).length).2
        (argv ++ [A.length]) := by
  have hset : (A ++ (w ++ c :: (List.replicate k ' ' ++ R))).set (A.length + w.length) NUL =
      (A ++ w ++ [NUL]) ++ (List.replicate k ' ' ++ R) := by
    have := set_split_at (A ++ w) c NUL (List.replicate k ' ' ++ R)
    simp only [List.length_append, List.append_assoc] at this
    simp only [List.append_assoc, List.singleton_append]
    exact this
  have hskip : skipSpaces ((A ++ w ++ [NUL]) ++ (List.replicate k ' ' ++ R))
      (A.length + w.length + 1) = A.length + w.length + 1 + k := by
    have := skipSpaces_split (A ++ w ++ [NUL]) R k hR
    simpa [List.length_append] using this
  have hbuf : (A ++ w ++ [NUL]) ++ (List.replicate k ' ' ++ R) =
      (A ++ (w ++ NUL :: List.replicate k ' ')) ++ R := by
    simp [List.append_assoc]
  have hlen : (A ++ (w ++ NUL :: List.replicate k ' ')).length = A.length + w.length + 1 + k := by
    simp [List.length_append]; omega
  simp only [parseLoop]
  rw [hset, hskip, hbuf, hlen]

theorem lineBody_head (items : List (Token × Nat)) (hwf : ∀ it ∈ items, it.1.WF) :
    (lineBody items ++ [NUL]).head? ≠ some ' ' := by
  cases items with
  | nil => simp [lineBody, NUL]
  | cons it rest =>
    have h := hwf it (List.mem_cons_self _ _)
    obtain ⟨t, k⟩ := it
    cases t with
    | plain w =>
      obtain ⟨hne, hsp, _, _⟩ := h
      cases w with
      | nil => exact absurd rfl hne
      | cons x w =>
        have hx : x ≠ ' ' := fun h => hsp (by simp [h])
        simp [lineBody, Token.text, hx]
    | quoted w => simp [lineBody, Token.text, SQUOTE]

theorem findDelim_plain (pre w : List Char) (r : List Char) (hne : w ≠ [])
    (hsp : ' ' ∉ w) (hn : NUL ∉ w) (hq : w.head? ≠ some SQUOTE) :
    findDelim (pre ++ (w ++ ' ' :: r)) pre.length = (pre.length, some (pre.length + w.length)) := by
  have hpk : peek (pre ++ (w ++ ' ' :: r)) pre.length ≠ SQUOTE := by
    cases w with
    | nil => exact absurd rfl hne
    | cons x w =>
      rw [List.cons_append, peek_split]
      intro h
      exact hq (by simp [h])
  simp only [findDelim, hpk, if_false, strchr_split pre w r ' ' hsp hn]

theorem findDelim_quoted (pre w : List Char) (r : List Char)
    (hq : SQUOTE ∉ w) (hn : NUL ∉ w) :
    findDelim (pre ++ SQUOTE :: (w ++ SQUOTE :: r)) pre.length =
      (pre.length + 1, some ((pre ++ [SQUOTE]).length + w.length)) := by
  have hpk : peek (pre ++ SQUOTE :: (w ++ SQUOTE :: r)) pre.length = SQUOTE := peek_split _ _ _
  have hs := strchr_split (pre ++ [SQUOTE]) w r SQUOTE hq hn
  simp only [List.append_assoc, List.singleton_append, List.length_append, List.length_singleton]
    at hs
  simp only [findDelim, hpk, if_true, hs, List.length_append, List.length_singleton]

/-- The loop of `parseline` on a buffer that holds, from offset `pre.length` on,
tokens that are each followed by at least one space: it stores one pointer per
token, and the string at each pointer is the token's argument. -/
theorem parseLoop_items (items : List (Token × Nat))
    (hwf : ∀ it ∈ items, it.1.WF ∧ 1 ≤ it.2) (fuel : Nat) (pre : List Char) (argv : List Nat)
    (hfuel : items.length ≤ fuel) :
    ∃ body ptrs,
      parseLoop fuel (pre ++ (lineBody items ++ [NUL]))
          (findDelim (pre ++ (lineBody items ++ [NUL])) pre.length).1
          (findDelim (pre ++ (lineBody items ++ [NUL])) pre.length).2 argv =
        some (pre ++ body, argv ++ ptrs) ∧
      ptrs.map (cstrAt (pre ++ body)) = items.map (fun it => it.1.arg) := by
  induction items generalizing fuel pre argv with
  | nil =>
    refine ⟨[NUL], [], ?_, rfl⟩
    have hpk : peek (pre ++ [NUL]) pre.length ≠ SQUOTE := by
      rw [peek_split]; decide
    have hs : strchr (pre ++ [NUL]) pre.length ' ' = none := by
      simp [strchr, List.drop_left, strchrFrom, NUL]
    simp only [lineBody, List.nil_append, findDelim, hpk, if_false, hs, List.append_nil]
    cases fuel <;> rfl
  | cons it rest ih =>
    obtain ⟨hit, hk⟩ := hwf it (List.mem_cons_self _ _)
    have hrest : ∀ x ∈ rest, x.1.WF ∧ 1 ≤ x.2 := fun x hx => hwf x (List.mem_cons_of_mem _ hx)
    have hR := lineBody_head rest (fun x hx => (hrest x hx).1)
    obtain ⟨t, k⟩ := it
    obtain ⟨k1, rfl⟩ : ∃ k1, k = k1 + 1 := ⟨k - 1, by simp only at hk; omega⟩
    obtain ⟨fuel1, rfl⟩ : ∃ f, fuel = f + 1 := ⟨fuel - 1, by simp only [List.length_cons] at hfuel; omega⟩
    have hfuel1 : rest.length ≤ fuel1 := by simp only [List.length_cons] at hfuel; omega
    cases t with
    | plain w =>
      obtain ⟨hne, hsp, hn, hq⟩ := hit
      have hbuf : pre ++ (lineBody ((Token.plain w, k1 + 1) :: rest) ++ [NUL]) =
          pre ++ (w ++ ' ' :: (List.replicate k1 ' ' ++ (lineBody rest ++ [NUL]))) := by
        simp [lineBody, Token.text, List.replicate_succ, List.append_assoc]
      rw [hbuf, findDelim_plain pre w _ hne hsp hn hq]
      simp only
      rw [parseLoop_step fuel1 pre w ' ' k1 _ argv hR]
      obtain ⟨body1, ptrs1, h1, h2⟩ :=
        ih hrest fuel1 (pre ++ (w ++ NUL :: List.replicate k1 ' ')) (argv ++ [pre.length]) hfuel1
      have hb : pre ++ (w ++ NUL :: List.replicate k1 ' ') ++ body1 =
          pre ++ (w ++ NUL :: (List.replicate k1 ' ' ++ body1)) := by
        simp [List.append_assoc]
      refine ⟨w ++ NUL :: (List.replicate k1 ' ' ++ body1), pre.length :: ptrs1, ?_, ?_⟩
      · rw [h1, hb]
        simp [List.append_assoc]
      · rw [hb] at h2
        simp only [List.map_cons, h2, cstrAt_split pre w _ hn, Token.arg]
    | quoted w =>
      obtain ⟨hq, hn⟩ := hit
      have hbuf : pre ++ (lineBody ((Token.quoted w, k1 + 1) :: rest) ++ [NUL]) =
          pre ++ SQUOTE :: (w ++ SQUOTE ::
            (List.replicate (k1 + 1) ' ' ++ (lineBody rest ++ [NUL]))) := by
        simp [lineBody, Token.text, List.append_assoc]
      have hbuf2 : pre ++ SQUOTE :: (w ++ SQUOTE ::
            (List.replicate (k1 + 1) ' ' ++ (lineBody rest ++ [NUL]))) =
          (pre ++ [SQUOTE]) ++ (w ++ SQUOTE ::
            (List.replicate (k1 + 1) ' ' ++ (lineBody rest ++ [NUL]))) := by
        simp [List.append_assoc]
      rw [hbuf, findDelim_quoted pre w _ hq hn]
      simp only
      have hl : pre.length + 1 = (pre ++ [SQUOTE]).length := by simp
      rw [hbuf2, hl, parseLoop_step fuel1 (pre ++ [SQUOTE]) w SQUOTE (k1 + 1) _ argv hR]
      obtain ⟨body1, ptrs1, h1, h2⟩ :=
        ih hrest fuel1 ((pre ++ [SQUOTE]) ++ (w ++ NUL :: List.replicate (k1 + 1) ' '))
          (argv ++ [(pre ++ [SQUOTE]).length]) hfuel1
      have hb : (pre ++ [SQUOTE]) ++ (w ++ NUL :: List.replicate (k1 + 1) ' ') ++ body1 =
          pre ++ SQUOTE :: (w ++ NUL :: (List.replicate (k1 + 1) ' ' ++ body1)) := by
        simp [List.append_assoc]
      have hb2 : pre ++ SQUOTE :: (w ++ NUL :: (List.replicate (k1 + 1) ' ' ++ body1)) =
          (pre ++ [SQUOTE]) ++ (w ++ NUL :: (List.replicate (k1 + 1) ' ' ++ body1)) := by
        simp [List.append_assoc]
      refine ⟨SQUOTE :: (w ++ NUL :: (List.replicate (k1 + 1) ' ' ++ body1)),
        (pre ++ [SQUOTE]).length :: ptrs1, ?_, ?_⟩
      · rw [h1, hb]
        simp [List.append_assoc]
      · rw [hb] at h2
        simp only [List.map_cons, h2, Token.arg]
        rw [hb2, cstrAt_split (pre ++ [SQUOTE]) w _ hn]

theorem lineBody_length (items : List (Token × Nat)) (h : ∀ it ∈ items, 1 ≤ it.2) :
    items.length ≤ (lineBody items).length := by
  induction items with
  | nil => simp
  | cons it rest ih =>
    have h1 := h it (List.mem_cons_self _ _)
    have h2 := ih (fun x hx => h x (List.mem_cons_of_mem _ hx))
    simp only [lineBody, List.length_cons, List.length_append, List.length_replicate]
    omega

theorem lineBody_nul_free (items : List (Token × Nat)) (hwf : ∀ it ∈ items, it.1.WF) :
    NUL ∉ lineBody items := by
  induction items with
  | nil => simp [lineBody]
  | cons it rest ih =>
    have h1 := hwf it (List.mem_cons_self _ _)
    have h2 := ih (fun x hx => hwf x (List.mem_cons_of_mem _ hx))
    have hsp : NUL ∉ List.replicate it.2 ' ' := by
      intro h
      have := List.eq_of_mem_replicate h
      exact absurd this (by decide)
    obtain ⟨t, k⟩ := it
    cases t with
    | plain w =>
      obtain ⟨_, _, hn, _⟩ := h1
      simp only [lineBody, Token.text, List.mem_append, not_or]
      exact ⟨hn, hsp, h2⟩
    | quoted w =>
      obtain ⟨_, hn⟩ := h1
      have hq : NUL ≠ SQUOTE := by decide
      simp only [lineBody, Token.text, List.mem_append, List.mem_cons, List.mem_singleton,
        not_or, List.not_mem_nil, or_false]
      exact ⟨⟨hq, hn, hq⟩, hsp, h2⟩

/-- Once the final newline has become a space, a non-empty sequence of tokens
separated by spaces is a sequence of tokens each followed by a space. -/
theorem lineBody_trailing_space (items : List (Token × Nat)) (hne : items ≠ [])
    (hwf : ∀ it ∈ items, it.1.WF) (hsep : SpacedOut items) :
    ∃ items1 : List (Token × Nat),
      items1.map (fun it => it.1.arg) = items.map (fun it => it.1.arg) ∧
      (∀ it ∈ items1, it.1.WF ∧ 1 ≤ it.2) ∧
      lineBody items ++ [' '] = lineBody items1 := by
  induction items with
  | nil => exact absurd rfl hne
  | cons it rest ih =>
    have h1 := hwf it (List.mem_cons_self _ _)
    cases rest with
    | nil =>
      refine ⟨[(it.1, it.2 + 1)], rfl, ?_, ?_⟩
      · intro x hx
        simp only [List.mem_singleton] at hx
        subst hx
        exact ⟨h1, by simp⟩
      · simp [lineBody, List.replicate_succ', List.append_assoc]
    | cons next rest =>
      obtain ⟨hk, hsep1⟩ := hsep
      obtain ⟨items1, ha, hb, hc⟩ :=
        ih (by simp) (fun x hx => hwf x (List.mem_cons_of_mem _ hx)) hsep1
      refine ⟨it :: items1, by simp [ha], ?_, ?_⟩
      · intro x hx
        rcases List.mem_cons.1 hx with rfl | hx
        · exact ⟨h1, hk⟩
        · exact hb x hx
      · simp only [lineBody, List.append_assoc] at hc ⊢
        rw [hc]

/-- The first part of `parseline` on a command line written as tokens: one
pointer per token, and the string at each pointer is the token's argument. -/
theorem parseline_split_items (lead : Nat) (items : List (Token × Nat))
    (hwf : ∀ it ∈ items, it.1.WF) (hsep : SpacedOut items) :
    ∃ buf ptrs, parseline_split (commandLine lead items) = some (buf, ptrs) ∧
      ptrs.map (cstrAt buf) = items.map (fun it => it.1.arg) := by
  have hnl : NUL ∉ commandLine lead items := by
    have h1 := lineBody_nul_free items hwf
    have h2 : NUL ∉ List.replicate lead ' ' := by
      intro h
      exact absurd (List.eq_of_mem_replicate h) (by decide)
    have h3 : NUL ≠ '\n' := by decide
    simp only [commandLine, List.mem_append, List.mem_singleton, not_or]
    exact ⟨h2, h1, h3⟩
  have hform : ∃ (lead1 : Nat) (items1 : List (Token × Nat)),
      items1.map (fun it => it.1.arg) = items.map (fun it => it.1.arg) ∧
      (∀ it ∈ items1, it.1.WF ∧ 1 ≤ it.2) ∧
      List.replicate lead ' ' ++ (lineBody items ++ [' ']) =
        List.replicate lead1 ' ' ++ lineBody items1 := by
    by_cases hne : items = []
    · subst hne
      exact ⟨lead + 1, [], rfl, by simp, by simp [lineBody, List.replicate_succ']⟩
    · obtain ⟨items1, ha, hb, hc⟩ := lineBody_trailing_space items hne hwf hsep
      exact ⟨lead, items1, ha, hb, by rw [hc]⟩
  obtain ⟨lead1, items1, ha, hb, hc⟩ := hform
  have hlen : strlen (commandLine lead items ++ [NUL]) = (commandLine lead items).length := by
    unfold strlen
    rw [cstrAt_zero_append_nul _ _ hnl]
  have hpos : (commandLine lead items).length ≠ 0 := by
    simp [commandLine]
  have hset : (commandLine lead items ++ [NUL]).set ((commandLine lead items).length - 1) ' ' =
      List.replicate lead1 ' ' ++ (lineBody items1 ++ [NUL]) := by
    have h := set_split_at (List.replicate lead ' ' ++ lineBody items) '\n' ' ' [NUL]
    have hl : (commandLine lead items).length - 1 =
        (List.replicate lead ' ' ++ lineBody items).length := by
      simp [commandLine]
    have he : commandLine lead items ++ [NUL] =
        (List.replicate lead ' ' ++ lineBody items) ++ '\n' :: [NUL] := by
      simp [commandLine, List.append_assoc]
    rw [hl, he, h]
    have : (List.replicate lead ' ' ++ lineBody items) ++ ' ' :: [NUL] =
        (List.replicate lead ' ' ++ (lineBody items ++ [' '])) ++ [NUL] := by
      simp [List.append_assoc]
    rw [this, hc, List.append_assoc]
  have hR := lineBody_head items1 (fun x hx => (hb x hx).1)
  have hskip : skipSpaces (List.replicate lead1 ' ' ++ (lineBody items1 ++ [NUL])) 0 =
      (List.replicate lead1 ' ').length := by
    have := skipSpaces_split [] (lineBody items1 ++ [NUL]) lead1 hR
    simpa using this
  have hfuel : items1.length ≤
      (List.replicate lead1 ' ' ++ (lineBody items1 ++ [NUL])).length := by
    have := lineBody_length items1 (fun x hx => (hb x hx).2)
    simp only [List.length_append]
    omega
  obtain ⟨body, ptrs, h1, h2⟩ :=
    parseLoop_items items1 hb _ (List.replicate lead1 ' ') [] hfuel
  refine ⟨List.replicate lead1 ' ' ++ body, ptrs, ?_, by rw [h2, ha]⟩
  unfold parseline_split
  rw [cstrAt_zero_of_nul_free _ hnl]
  simp only [hlen, hpos, if_false]
  rw [hset, hskip, h1, List.nil_append]

/-- The pointers `parseline` leaves are those its loop has stored, without the
last one when that is the background marker. -/
theorem parseline_argv_of_split (cmdline : List Char) (p : Parsed)
    (hp : parseline cmdline = some p) :
    ∃ r, parseline_split cmdline = some r ∧ (p.argv = r.2 ∨ p.argv = r.2.dropLast) := by
  unfold parseline at hp
  cases hs : parseline_split cmdline with
  | none => simp [hs] at hp
  | some r =>
    obtain ⟨buf, argv⟩ := r
    simp only [hs] at hp
    refine ⟨(buf, argv), rfl, ?_⟩
    cases hl : argv.getLast? with
    | none =>
      simp only [hl, Option.some.injEq] at hp
      subst hp
      exact Or.inl rfl
    | some last =>
      simp only [hl] at hp
      split at hp
      · simp only [Option.some.injEq] at hp
        subst hp
        exact Or.inr rfl
      · simp only [Option.some.injEq] at hp
        subst hp
        exact Or.inl rfl

/-- A line that leaves an empty argument vector does not overrun `argv`. -/
theorem argvOverrun_empty_argv (cmdline : List Char) (p : Parsed)
    (hp : parseline cmdline = some p) (hargs : p.args = []) : argvOverrun cmdline = false := by
  obtain ⟨r, hr, hor⟩ := parseline_argv_of_split cmdline p hp
  have h0 : p.argv = [] := by
    simpa [Parsed.args] using hargs
  have hlen : r.2.length ≤ 1 := by
    rcases hor with h | h
    · rw [← h, h0]; simp
    · have := congrArg List.length h
      rw [h0, List.length_dropLast] at this
      simp only [List.length_nil] at this
      omega
  simp only [argvOverrun, hr, decide_eq_false_iff_not, MAXARGS]
  omega

/-- An empty argument vector makes `eval` return without any effect. -/
theorem eval_empty_argv (s : Shell) (cmdline : List Char) (pid : Int) (execOk : Bool)
    (chld : List (Nat → Int → Int × WStatus))
    (p : Parsed) (hp : parseline cmdline = some p) (hargs : p.args = []) :
    eval s cmdline pid execOk chld = .ret s := by
  simp [eval, hp, hargs, argvOverrun_empty_argv cmdline p hp hargs]

/-- C9, as the claim states it, fails: the line "ls &" is made of the two
tokens "ls" and "&" separated by a space, and argv holds only "ls". -/
theorem argv_drops_ampersand_token :
    (∀ it ∈ [(Token.plain "ls".toList, 1), (Token.plain "&".toList, 0)], it.1.WF) ∧
    SpacedOut [(Token.plain "ls".toList, 1), (Token.plain "&".toList, 0)] ∧
    commandLine 0 [(Token.plain "ls".toList, 1), (Token.plain "&".toList, 0)] =
      "ls &\n".toList ∧
    (parseline "ls &\n".toList).map Parsed.args = some ["ls".toList] := by
  decide

/-- C9 (amended): on every newline-terminated command line made of tokens
separated by one or more spaces, each token a run of non-space characters not
starting with a single quote or a span enclosed in single quotes, argv is the
sequence of tokens in order, a quoted span being one argument with its quotes
removed and its inner spaces kept, except that a last token beginning with '&'
is left out of argv.  A line of spaces alone gives an empty argv, on which
`eval` returns without any effect. -/
theorem parseline_tokenizes (lead : Nat) (items : List (Token × Nat))
    (hwf : ∀ it ∈ items, it.1.WF) (hsep : SpacedOut items) :
    ∃ p, parseline (commandLine lead items) = some p ∧
      ((∃ w, (items.map (fun it => it.1.arg)).getLast? = some ('&' :: w)) →
        p.args = (items.map (fun it => it.1.arg)).dropLast) ∧
      ((¬ ∃ w, (items.map (fun it => it.1.arg)).getLast? = some ('&' :: w)) →
        p.args = items.map (fun it => it.1.arg)) ∧
      (items = [] → p.args = [] ∧
        ∀ (s : Shell) (pid : Int) (execOk : Bool) (chld : List (Nat → Int → Int × WStatus)),
          eval s (commandLine lead items) pid execOk chld = .ret s) := by
  obtain ⟨buf, ptrs, h1, h2⟩ := parseline_split_items lead items hwf hsep
  have hamp : '&' ≠ NUL := by decide
  have hlast : (items.map (fun it => it.1.arg)).getLast? = ptrs.getLast?.map (cstrAt buf) := by
    rw [← h2, List.getLast?_map]
  have key : ∃ p, parseline (commandLine lead items) = some p ∧
      ((∃ w, (items.map (fun it => it.1.arg)).getLast? = some ('&' :: w)) →
        p.args = (items.map (fun it => it.1.arg)).dropLast) ∧
      ((¬ ∃ w, (items.map (fun it => it.1.arg)).getLast? = some ('&' :: w)) →
        p.args = items.map (fun it => it.1.arg)) := by
    simp only [parseline, h1]
    cases hl : ptrs.getLast? with
    | none =>
      refine ⟨_, rfl, ?_, ?_⟩
      · rintro ⟨w, hw⟩
        rw [hlast, hl] at hw
        cases hw
      · intro _
        exact h2
    | some last =>
      simp only
      rw [hlast, hl]
      by_cases hpk : peek buf last = '&'
      · simp only [hpk, if_true]
        refine ⟨_, rfl, ?_, ?_⟩
        · intro _
          simp only [Parsed.args, List.map_dropLast, h2]
        · intro hno
          exact absurd ((peek_eq_iff_cstrAt buf last '&' hamp).1 hpk)
            (fun ⟨w, hw⟩ => hno ⟨w, by simp [hw]⟩)
      · simp only [hpk, if_false]
        refine ⟨_, rfl, ?_, ?_⟩
        · rintro ⟨w, hw⟩
          simp only [Option.map_some', Option.some.injEq] at hw
          exact absurd ((peek_eq_iff_cstrAt buf last '&' hamp).2 ⟨w, hw⟩) hpk
        · intro _
          exact h2
  obtain ⟨p, hp, ha, hb⟩ := key
  refine ⟨p, hp, ha, hb, ?_⟩
  intro hnil
  have hargs : p.args = [] := by
    have := hb (by subst hnil; simp)
    simpa [hnil] using this
  exact ⟨hargs, fun s pid execOk chld => eval_empty_argv s _ pid execOk chld p hp hargs⟩

theorem parseline_tokenizes_witness :
    (∀ it ∈ [(Token.plain "echo".toList, 2), (Token.quoted "a b".toList, 1),
        (Token.plain "c".toList, 0)], it.1.WF) ∧
    SpacedOut [(Token.plain "echo".toList, 2), (Token.quoted "a b".toList, 1),
        (Token.plain "c".toList, 0)] ∧
    ∃ p, parseline (commandLine 1 [(Token.plain "echo".toList, 2),
        (Token.quoted "a b".toList, 1), (Token.plain "c".toList, 0)]) = some p ∧
      ((∃ w, ([(Token.plain "echo".toList, 2), (Token.quoted "a b".toList, 1),
          (Token.plain "c".toList, 0)].map (fun it => it.1.arg)).getLast? = some ('&' :: w)) →
        p.args = ([(Token.plain "echo".toList, 2), (Token.quoted "a b".toList, 1),
          (Token.plain "c".toList, 0)].map (fun it => it.1.arg)).dropLast) ∧
      ((¬ ∃ w, ([(Token.plain "echo".toList, 2), (Token.quoted "a b".toList, 1),
          (Token.plain "c".toList, 0)].map (fun it => it.1.arg)).getLast? = some ('&' :: w)) →
        p.args = [(Token.plain "echo".toList, 2), (Token.quoted "a b".toList, 1),
          (Token.plain "c".toList, 0)].map (fun it => it.1.arg)) ∧
      ([(Token.plain "echo".toList, 2), (Token.quoted "a b".toList, 1),
          (Token.plain "c".toList, 0)] = [] → p.args = [] ∧
        ∀ (s : Shell) (pid : Int) (execOk : Bool) (chld : List (Nat → Int → Int × WStatus)),
          eval s (commandLine 1 [(Token.plain "echo".toList, 2),
            (Token.quoted "a b".toList, 1), (Token.plain "c".toList, 0)]) pid execOk chld =
              .ret s) :=
  ⟨by decide, by decide,
    parseline_tokenizes 1 [(Token.plain "echo".toList, 2), (Token.quoted "a b".toList, 1),
      (Token.plain "c".toList, 0)] (by decide) (by decide)⟩

/-- The line of the witness and what `parseline` makes of it. -/
theorem parseline_quoted_example :
    commandLine 1 [(Token.plain "echo".toList, 2), (Token.quoted "a b".toList, 1),
        (Token.plain "c".toList, 0)] = " echo  'a b' c\n".toList ∧
      (parseline " echo  'a b' c\n".toList).map (fun p => (p.ret, p.args)) =
        some (0, ["echo".toList, "a b".toList, "c".toList]) := by
  decide

/-! ## Built-in commands and background launch -/

/-- No call of `do_bgfg` changes the job list. -/
theorem do_bgfg_keeps_jobs (s s1 : Shell) (argv : List (List Char))
    (h : do_bgfg s argv = .ret s1) : s1.jobs = s.jobs := by
  unfold do_bgfg at h
  split at h
  · cases h
  · split at h
    · cases h; rfl
    · cases h; rfl

/-- What `eval` does with a line from which `parseline` returns `r.1` and leaves
the non-empty argument vector `r.2` within the bounds of `argv`. -/
theorem eval_of_parse (s : Shell) (cmdline : List Char) (pid : Int) (execOk : Bool)
    (chld : List (Nat → Int → Int × WStatus)) (r : Int × List (List Char))
    (h : (parseline cmdline).map (fun p => (p.ret, p.args)) = some r)
    (hov : argvOverrun cmdline = false) (hne : r.2 ≠ []) :
    eval s cmdline pid execOk chld =
      if builtin_cmd r.2 ≠ 0 then do_bgfg s r.2
      else if pid = 0 then eval_child s r.2 execOk
      else eval_parent s r.1 pid cmdline chld := by
  cases hp : parseline cmdline with
  | none => rw [hp] at h; cases h
  | some p =>
    rw [hp] at h
    simp only [Option.map_some', Option.some.injEq] at h
    subst h
    unfold eval
    rw [hp]
    simp only [hov, Bool.false_eq_true, if_false]
    rw [if_neg hne]

/-- C7 (the code at the failing input): with job 1 stopped, the commands
"bg %1" and "fg %1" print "do build in cmd" and leave the job in state `ST`,
whatever handlers run meanwhile; the stopped state is the one the handler
produces for a stopped foreground job. -/
theorem bg_fg_leave_job_stopped :
    (sigchld_body (addjob (initShell 0) 22203 FG "sleep 100\n".toList).2 22203
        (.stopped 20)).map (fun s => (s.jobs, s.nextjid)) =
      some (stoppedJobShell.jobs, stoppedJobShell.nextjid) ∧
    (∀ chld : List (Nat → Int → Int × WStatus),
      eval stoppedJobShell "bg %1\n".toList 0 true chld =
        .ret { stoppedJobShell with out := "do build in cmd\n".toList }) ∧
    (∀ chld : List (Nat → Int → Int × WStatus),
      eval stoppedJobShell "fg %1\n".toList 0 true chld =
        .ret { stoppedJobShell with out := "do build in cmd\n".toList }) ∧
    stoppedJobShell.jobs.head? =
      some { pid := 22203, jid := 1, state := ST, cmdline := "sleep 100\n".toList } := by
  refine ⟨by decide, fun chld => ?_, fun chld => ?_, by decide⟩
  · have he := eval_of_parse stoppedJobShell "bg %1\n".toList 0 true chld
      (0, ["bg".toList, "%1".toList]) (by decide) (by decide) (by decide)
    rw [if_pos (by decide)] at he
    exact he.trans (by decide)
  · have he := eval_of_parse stoppedJobShell "fg %1\n".toList 0 true chld
      (0, ["fg".toList, "%1".toList]) (by decide) (by decide) (by decide)
    rw [if_pos (by decide)] at he
    exact he.trans (by decide)

/-! ## Signal-safe integer output -/

theorem toDigitsCore_eq_append (n : Nat) :
    ∀ (fuel : Nat) (ds : List Char), n < fuel →
      Nat.toDigitsCore 10 fuel n ds = Nat.toDigits 10 n ++ ds := by
  induction n using Nat.strong_induction_on with
  | _ n ih =>
    intro fuel ds hf
    obtain ⟨f, rfl⟩ : ∃ f, fuel = f + 1 := ⟨fuel - 1, by omega⟩
    unfold Nat.toDigits
    simp only [Nat.toDigitsCore]
    by_cases h0 : n / 10 = 0
    · simp [h0]
    · simp only [h0, if_false]
      have hlt : n / 10 < n := Nat.div_lt_self (by omega) (by decide)
      rw [ih (n / 10) hlt f _ (by omega), ih (n / 10) hlt n _ hlt]
      simp

theorem toDigits_step (n : Nat) :
    Nat.toDigits 10 n =
      if n / 10 = 0 then [Nat.digitChar (n % 10)]
      else Nat.toDigits 10 (n / 10) ++ [Nat.digitChar (n % 10)] := by
  conv_lhs => unfold Nat.toDigits
  simp only [Nat.toDigitsCore]
  by_cases h0 : n / 10 = 0
  · simp [h0]
  · simp only [h0, if_false]
    have hlt : n / 10 < n := Nat.div_lt_self (by omega) (by decide)
    exact toDigitsCore_eq_append (n / 10) n _ hlt

theorem digit_char_eq (d : Nat) (hd : d < 10) :
    Char.ofNat (((d : Int) + 48).toNat) = Nat.digitChar d := by
  have h : (((d : Int) + 48).toNat) = d + 48 := by omega
  rw [h]
  interval_cases d <;> rfl

theorem itosDigits_zero (fuel : Nat) (s : List Char) : itosDigits fuel 0 s = s := by
  cases fuel <;> simp [itosDigits]

/-- The digit loop of `sio_itos` on a positive number appends its decimal
digits, least significant first. -/
theorem itosDigits_nat (n : Nat) :
    ∀ (fuel : Nat) (s : List Char), n ≤ fuel → 0 < n →
      itosDigits fuel (n : Int) s = s ++ (Nat.toDigits 10 n).reverse := by
  induction n using Nat.strong_induction_on with
  | _ n ih =>
    intro fuel s hf hn
    obtain ⟨f, rfl⟩ : ∃ f, fuel = f + 1 := ⟨fuel - 1, by omega⟩
    have hne : (n : Int) ≠ 0 := by omega
    have hdiv : (n : Int).tdiv 10 = ((n / 10 : Nat) : Int) := (Int.ofNat_tdiv n 10).symm
    have hmod : (n : Int).tmod 10 = ((n % 10 : Nat) : Int) := (Int.ofNat_tmod n 10).symm
    simp only [itosDigits, hne, if_false, hdiv, hmod]
    rw [digit_char_eq (n % 10) (Nat.mod_lt _ (by decide)), toDigits_step n]
    by_cases h0 : n / 10 = 0
    · simp only [h0, if_true, Nat.cast_zero, itosDigits_zero, List.reverse_singleton]
    · simp only [h0, if_false]
      have hlt : n / 10 < n := Nat.div_lt_self (by omega) (by decide)
      rw [ih (n / 10) hlt f _ (by omega) (by omega)]
      simp

theorem getD_split_at (P : List Char) (y : Char) (Q : List Char) (d : Char) :
    (P ++ y :: Q).getD P.length d = y := by
  simp only [List.getD_eq_getElem?_getD, getElem?_split_at, Option.getD_some]

/-- The reversal loop of `sio_itos` reverses the part of the buffer between
`l` and `r`. -/
theorem itosReverse_mid (k : Nat) :
    ∀ (M : List Char), M.length = k → ∀ (fuel : Nat) (A B : List Char), M.length ≤ fuel →
      itosReverse fuel (A ++ (M ++ B)) A.length (A.length + M.length - 1) =
        A ++ (M.reverse ++ B) := by
  induction k using Nat.strong_induction_on with
  | _ k ih =>
    intro M hk fuel A B hf
    cases M with
    | nil =>
      cases fuel with
      | zero => rfl
      | succ f =>
        have : ¬ (A.length < A.length + 0 - 1) := by omega
        simp [itosReverse, this]
    | cons x M2 =>
      rcases List.eq_nil_or_concat M2 with rfl | ⟨M1, y, hM2⟩
      · cases fuel with
        | zero => rfl
        | succ f => simp [itosReverse]
      · rw [List.concat_eq_append] at hM2
        subst hM2
        obtain ⟨f, rfl⟩ : ∃ f, fuel = f + 1 :=
          ⟨fuel - 1, by
            simp only [List.length_cons, List.length_append, List.length_singleton, List.length_nil] at hf; omega⟩
        have hlr : A.length < A.length + (x :: (M1 ++ [y])).length - 1 := by
          simp only [List.length_cons, List.length_append, List.length_singleton, List.length_nil]; omega
        have hr : A.length + (x :: (M1 ++ [y])).length - 1 = (A ++ x :: M1).length := by
          simp only [List.length_cons, List.length_append, List.length_singleton, List.length_nil]; omega
        have hs1 : A ++ (x :: (M1 ++ [y]) ++ B) = (A ++ x :: M1) ++ y :: B := by simp
        have hs2 : (A ++ x :: M1) ++ y :: B = A ++ x :: (M1 ++ y :: B) := by simp
        have hswap : swapChars (A ++ (x :: (M1 ++ [y]) ++ B)) A.length
            (A.length + (x :: (M1 ++ [y])).length - 1) = (A ++ [y]) ++ (M1 ++ x :: B) := by
          unfold swapChars
          rw [hr, hs1, getD_split_at, hs2, getD_split_at, set_split_at]
          have hs3 : A ++ y :: (M1 ++ y :: B) = (A ++ y :: M1) ++ y :: B := by simp
          have hl3 : (A ++ x :: M1).length = (A ++ y :: M1).length := by simp
          rw [hs3, hl3, set_split_at]
          simp
        have hidx : A.length + (x :: (M1 ++ [y])).length - 1 - 1 =
            (A ++ [y]).length + M1.length - 1 := by
          simp only [List.length_cons, List.length_append, List.length_singleton, List.length_nil]; omega
        have hl1 : A.length + 1 = (A ++ [y]).length := by simp
        simp only [itosReverse, hlr, if_true]
        rw [hswap, hidx, hl1]
        have hM1 : M1.length < k := by
          rw [← hk]; simp only [List.length_cons, List.length_append, List.length_singleton, List.length_nil]; omega
        have hf1 : M1.length ≤ f := by
          simp only [List.length_cons, List.length_append, List.length_singleton, List.length_nil] at hf; omega
        rw [ih M1.length hM1 M1 rfl f (A ++ [y]) (x :: B) hf1]
        simp

theorem itosReverse_tail (A R : List Char) :
    itosReverse (A ++ R).length (A ++ R) A.length ((A ++ R).length - 1) = A ++ R.reverse := by
  have := itosReverse_mid _ R rfl (A ++ R).length A [] (by simp)
  simp only [List.append_nil, List.length_append] at this ⊢
  exact this

/-- For every `int` other than `INT_MIN`, `sio_itos` yields the decimal
numeral, the text `printf("%d")` prints. -/
theorem sio_itos_eq_fmt_d (n : Int) (h : -2147483648 < n) : sio_itos n = fmt_d n := by
  unfold sio_itos fmt_d
  by_cases h0 : n = 0
  · subst h0; rfl
  · simp only [h0, if_false]
    by_cases hneg : n < 0
    · simp only [hneg, if_true]
      have hw : wrap32 (n * -1) = ((n.natAbs : Nat) : Int) := by
        unfold wrap32; omega
      have hpos : 0 < n.natAbs := by omega
      rw [hw, Int.natAbs_ofNat, itosDigits_nat n.natAbs n.natAbs _ (le_refl _) hpos]
      have := itosReverse_tail ['-'] (Nat.toDigits 10 n.natAbs).reverse
      rw [List.reverse_reverse] at this
      exact this
    · simp only [hneg, if_false]
      obtain ⟨m, rfl⟩ : ∃ m : Nat, n = (m : Int) := ⟨n.toNat, by omega⟩
      have hpos : 0 < m := by omega
      simp only [Int.natAbs_ofNat, Int.toNat_ofNat]
      rw [itosDigits_nat m m _ (le_refl _) hpos]
      have := itosReverse_tail [] (Nat.toDigits 10 m).reverse
      rw [List.reverse_reverse] at this
      exact this

/-! ## Lookups -/

theorem findpid_none_iff (pid : Int) (l : List job_t) :
    findpid pid l = none ↔ ∀ j ∈ l, j.pid ≠ pid := by
  induction l with
  | nil => simp [findpid]
  | cons x rest ih =>
    by_cases hx : x.pid = pid
    · simp [findpid, hx]
    · simp [findpid, hx, ih]

theorem findpid_some (pid : Int) (l : List job_t) (i : Nat) (h : findpid pid l = some i) :
    ∃ j, l[i]? = some j ∧ j.pid = pid ∧ ∀ k x, k < i → l[k]? = some x → x.pid ≠ pid := by
  induction l generalizing i with
  | nil => simp [findpid] at h
  | cons a rest ih =>
    by_cases ha : a.pid = pid
    · simp only [findpid, ha, if_true, Option.some.injEq] at h
      subst h
      exact ⟨a, List.getElem?_cons_zero, ha, fun k x hk _ => absurd hk (Nat.not_lt_zero k)⟩
    · simp only [findpid, ha, if_false, Option.map_eq_some'] at h
      obtain ⟨i1, hi1, rfl⟩ := h
      obtain ⟨j, hj1, hj2, hj3⟩ := ih i1 hi1
      refine ⟨j, by simpa using hj1, hj2, ?_⟩
      intro k x hk hx
      cases k with
      | zero =>
        simp only [List.getElem?_cons_zero, Option.some.injEq] at hx
        subst hx
        exact ha
      | succ k1 =>
        simp only [List.getElem?_cons_succ] at hx
        exact hj3 k1 x (by omega) hx

theorem findjid_none_iff (jid : Int) (l : List job_t) :
    findjid jid l = none ↔ ∀ j ∈ l, j.jid ≠ jid := by
  induction l with
  | nil => simp [findjid]
  | cons x rest ih =>
    by_cases hx : x.jid = jid
    · simp [findjid, hx]
    · simp [findjid, hx, ih]

theorem findjid_some (jid : Int) (l : List job_t) (i : Nat) (h : findjid jid l = some i) :
    ∃ j, l[i]? = some j ∧ j.jid = jid ∧ ∀ k x, k < i → l[k]? = some x → x.jid ≠ jid := by
  induction l generalizing i with
  | nil => simp [findjid] at h
  | cons a rest ih =>
    by_cases ha : a.jid = jid
    · simp only [findjid, ha, if_true, Option.some.injEq] at h
      subst h
      exact ⟨a, List.getElem?_cons_zero, ha, fun k x hk _ => absurd hk (Nat.not_lt_zero k)⟩
    · simp only [findjid, ha, if_false, Option.map_eq_some'] at h
      obtain ⟨i1, hi1, rfl⟩ := h
      obtain ⟨j, hj1, hj2, hj3⟩ := ih i1 hi1
      refine ⟨j, by simpa using hj1, hj2, ?_⟩
      intro k x hk hx
      cases k with
      | zero =>
        simp only [List.getElem?_cons_zero, Option.some.injEq] at hx
        subst hx
        exact ha
      | succ k1 =>
        simp only [List.getElem?_cons_succ] at hx
        exact hj3 k1 x (by omega) hx

/-- C11: `getjobpid` and `getjobjid` return `NULL` for every argument below 1;
for an argument of at least 1 they return `NULL` exactly when no slot has that
pid (respectively jid), and the slot they return otherwise is the
lowest-indexed one whose pid (respectively jid) equals the argument. -/
theorem lookup_contract (l : List job_t) (a : Int) :
    (a < 1 → getjobpid l a = none ∧ getjobjid l a = none) ∧
    (1 ≤ a →
      (getjobpid l a = none ↔ ∀ j ∈ l, j.pid ≠ a) ∧
      (∀ i, getjobpid l a = some i →
        ∃ j, l[i]? = some j ∧ j.pid = a ∧ ∀ k x, k < i → l[k]? = some x → x.pid ≠ a) ∧
      (getjobjid l a = none ↔ ∀ j ∈ l, j.jid ≠ a) ∧
      (∀ i, getjobjid l a = some i →
        ∃ j, l[i]? = some j ∧ j.jid = a ∧ ∀ k x, k < i → l[k]? = some x → x.jid ≠ a)) := by
  unfold getjobpid getjobjid
  constructor
  · intro h
    simp [h]
  · intro h
    have h1 : ¬ a < 1 := by omega
    simp only [h1, if_false]
    exact ⟨findpid_none_iff a l, findpid_some a l, findjid_none_iff a l, findjid_some a l⟩

/-- A lookup in a table of three jobs, two of which have the same jid. -/
theorem lookup_example :
    getjobpid [{ pid := 7, jid := 1, state := BG, cmdline := [] },
               { pid := 9, jid := 2, state := ST, cmdline := [] },
               { pid := 4, jid := 2, state := BG, cmdline := [] }] 9 = some 1 ∧
    getjobjid [{ pid := 7, jid := 1, state := BG, cmdline := [] },
               { pid := 9, jid := 2, state := ST, cmdline := [] },
               { pid := 4, jid := 2, state := BG, cmdline := [] }] 2 = some 1 ∧
    getjobpid [{ pid := 7, jid := 1, state := BG, cmdline := [] }] 0 = none ∧
    getjobjid [{ pid := 7, jid := 1, state := BG, cmdline := [] }] 3 = none := by
  decide

/-! ## The foreground job -/

theorem fgpid_none (l : List job_t) (h : ∀ j ∈ l, j.state ≠ FG) : fgpid l = 0 := by
  induction l with
  | nil => rfl
  | cons x rest ih =>
    have hx := h x (List.mem_cons_self _ _)
    simp only [fgpid, hx, if_false]
    exact ih (fun j hj => h j (List.mem_cons_of_mem _ hj))

theorem fgpid_of_fg (l : List job_t) (h : AtMostOneFG l) :
    ∀ j ∈ l, j.state = FG → fgpid l = j.pid := by
  induction l with
  | nil => intro j hj; cases hj
  | cons x rest ih =>
    unfold AtMostOneFG at h ih
    rw [List.pairwise_cons] at h
    intro j hj hfg
    by_cases hx : x.state = FG
    · simp only [fgpid, hx, if_true]
      rcases List.mem_cons.1 hj with rfl | hj1
      · rfl
      · exact absurd ⟨hx, hfg⟩ (h.1 j hj1)
    · simp only [fgpid, hx, if_false]
      rcases List.mem_cons.1 hj with rfl | hj1
      · exact absurd hfg hx
      · exact ih h.2 j hj1 hfg

/-- C12: on a table with at most one slot in state `FG`, `fgpid` returns the
pid of that slot when there is one and 0 when no slot is in state `FG`.  The
function only reads the table. -/
theorem fgpid_contract (l : List job_t) (h : AtMostOneFG l) :
    ((∀ j ∈ l, j.state ≠ FG) → fgpid l = 0) ∧
    (∀ j ∈ l, j.state = FG → fgpid l = j.pid) :=
  ⟨fgpid_none l, fgpid_of_fg l h⟩

theorem fgpid_contract_witness :
    AtMostOneFG [{ pid := 7, jid := 1, state := BG, cmdline := [] },
                 { pid := 9, jid := 2, state := FG, cmdline := [] }] ∧
    ((∀ j ∈ [({ pid := 7, jid := 1, state := BG, cmdline := [] } : job_t),
             { pid := 9, jid := 2, state := FG, cmdline := [] }], j.state ≠ FG) →
      fgpid [{ pid := 7, jid := 1, state := BG, cmdline := [] },
             { pid := 9, jid := 2, state := FG, cmdline := [] }] = 0) ∧
    (∀ j ∈ [({ pid := 7, jid := 1, state := BG, cmdline := [] } : job_t),
            { pid := 9, jid := 2, state := FG, cmdline := [] }], j.state = FG →
      fgpid [{ pid := 7, jid := 1, state := BG, cmdline := [] },
             { pid := 9, jid := 2, state := FG, cmdline := [] }] = j.pid) :=
  ⟨by decide, fgpid_contract _ (by decide)⟩

/-- The foreground pid of a table with one foreground job and of the initial
table. -/
theorem fgpid_example :
    fgpid [{ pid := 7, jid := 1, state := BG, cmdline := [] },
           { pid := 9, jid := 2, state := FG, cmdline := [] }] = 9 ∧
    fgpid (initShell 0).jobs = 0 := by
  decide

/-! ## The interactive signal relay -/

theorem relayLoop_none (sig : Signal) (l : List job_t) (h : ∀ j ∈ l, j.state ≠ FG) :
    relayLoop sig l = [] := by
  induction l with
  | nil => rfl
  | cons x rest ih =>
    have hx := h x (List.mem_cons_self _ _)
    simp only [relayLoop, hx, if_false]
    exact ih (fun j hj => h j (List.mem_cons_of_mem _ hj))

theorem relayLoop_first (sig : Signal) (l : List job_t) (i : Nat) (j : job_t)
    (hj : l[i]? = some j) (hfg : j.state = FG)
    (hfirst : ∀ k x, k < i → l[k]? = some x → x.state ≠ FG) :
    relayLoop sig l = [(-j.pid, sig)] := by
  induction l generalizing i with
  | nil => simp at hj
  | cons a rest ih =>
    cases i with
    | zero =>
      simp only [List.getElem?_cons_zero, Option.some.injEq] at hj
      subst hj
      simp [relayLoop, hfg]
    | succ i1 =>
      have ha : a.state ≠ FG := hfirst 0 a (by omega) List.getElem?_cons_zero
      simp only [List.getElem?_cons_succ] at hj
      simp only [relayLoop, ha, if_false]
      exact ih i1 hj (fun k x hk hx => hfirst (k + 1) x (by omega) (by simpa using hx))

/-- C13: `sigint_handler` and `sigtstp_handler` leave the globals (the table
and the output) unchanged; when no slot is in state `FG` they make no call of
`kill`, and otherwise they make exactly one, `kill(-pid, SIGINT)` respectively
`kill(-pid, SIGTSTP)`, for the pid of the lowest-indexed slot in state `FG`. -/
theorem signal_relay_contract (s : Shell) :
    (sigint_handler s).1 = s ∧ (sigtstp_handler s).1 = s ∧
    ((∀ j ∈ s.jobs, j.state ≠ FG) →
      (sigint_handler s).2 = [] ∧ (sigtstp_handler s).2 = []) ∧
    (∀ (i : Nat) (j : job_t), s.jobs[i]? = some j → j.state = FG →
      (∀ (k : Nat) (x : job_t), k < i → s.jobs[k]? = some x → x.state ≠ FG) →
      (sigint_handler s).2 = [(-j.pid, Signal.SIGINT)] ∧
      (sigtstp_handler s).2 = [(-j.pid, Signal.SIGTSTP)]) := by
  refine ⟨rfl, rfl, ?_, ?_⟩
  · intro h
    exact ⟨relayLoop_none _ _ h, relayLoop_none _ _ h⟩
  · intro i j hj hfg hfirst
    exact ⟨relayLoop_first _ _ i j hj hfg hfirst, relayLoop_first _ _ i j hj hfg hfirst⟩

/-- The relay on the initial table and on a table whose second slot is the
foreground job 22203. -/
theorem signal_relay_example :
    sigint_handler (initShell 0) = (initShell 0, []) ∧
    (sigtstp_handler (addjob (addjob (initShell 0) 101 BG "a &\n".toList).2 22203 FG
        "sleep 100\n".toList).2).2 = [(-22203, Signal.SIGTSTP)] := by
  decide

/-! ## Slot well-formedness -/

theorem slotsWF_init (tbl : List job_t) : SlotsWF (initjobs tbl) := by
  intro j hj
  simp only [initjobs, List.mem_map] at hj
  obtain ⟨_, _, rfl⟩ := hj
  simp [clearjob]

theorem slotsWF_addjob (s : Shell) (pid state : Int) (cmdline : List Char)
    (h : SlotsWF s.jobs) (hst : state = FG ∨ state = BG ∨ state = ST) :
    SlotsWF (addjob s pid state cmdline).2.jobs := by
  unfold addjob
  by_cases hp : pid < 1
  · simpa [hp] using h
  · cases hl : addjobLoop pid state s.nextjid cmdline s.jobs with
    | none => simpa [hp, hl] using h
    | some l1 =>
      simp only [hp, hl, if_false]
      obtain ⟨pre, j, post, h1, _, _, h4⟩ := addjobLoop_some_split _ _ _ _ _ _ hl
      subst h4
      rw [h1] at h
      intro x hx
      rcases List.mem_append.1 hx with hx | hx
      · exact h x (by simp [hx])
      · rcases List.mem_cons.1 hx with rfl | hx
        · have h0 : pid ≠ 0 := by omega
          have hu : state ≠ UNDEF := by
            rcases hst with rfl | rfl | rfl <;> decide
          simp [h0, hu]
        · exact h x (by simp [hx])

theorem slotsWF_deletejob (s : Shell) (pid : Int) (h : SlotsWF s.jobs) :
    SlotsWF (deletejob s pid).2.jobs := by
  unfold deletejob
  by_cases hp : pid < 1
  · simpa [hp] using h
  · cases hl : deletejobLoop pid s.jobs with
    | none => simpa [hp, hl] using h
    | some l1 =>
      simp only [hp, hl, if_false]
      obtain ⟨pre, j, post, h1, _, _, h4⟩ := deletejobLoop_some_split _ _ _ hl
      subst h4
      rw [h1] at h
      intro x hx
      rcases List.mem_append.1 hx with hx | hx
      · exact h x (by simp [hx])
      · rcases List.mem_cons.1 hx with rfl | hx
        · simp [clearjob]
        · exact h x (by simp [hx])

theorem mem_clearAt (i : Nat) (l : List job_t) (x : job_t) (hx : x ∈ clearAt i l) :
    x ∈ l ∨ x = freeSlot := by
  induction l generalizing i with
  | nil => simp [clearAt] at hx
  | cons a rest ih =>
    cases i with
    | zero =>
      simp only [clearAt, List.mem_cons] at hx
      rcases hx with rfl | hx
      · exact Or.inr rfl
      · exact Or.inl (List.mem_cons_of_mem _ hx)
    | succ i1 =>
      simp only [clearAt, List.mem_cons] at hx
      rcases hx with rfl | hx
      · exact Or.inl (List.mem_cons_self _ _)
      · rcases ih i1 hx with h | h
        · exact Or.inl (List.mem_cons_of_mem _ h)
        · exact Or.inr h

theorem slotsWF_clearAt (i : Nat) (l : List job_t) (h : SlotsWF l) : SlotsWF (clearAt i l) := by
  intro x hx
  rcases mem_clearAt i l x hx with hx | rfl
  · exact h x hx
  · simp [freeSlot]

theorem mem_setStateAt (i : Nat) (state : Int) (l : List job_t) (x : job_t)
    (hx : x ∈ setStateAt i state l) :
    x ∈ l ∨ ∃ j, l[i]? = some j ∧ x = { j with state := state } := by
  induction l generalizing i with
  | nil => simp [setStateAt] at hx
  | cons a rest ih =>
    cases i with
    | zero =>
      simp only [setStateAt, List.mem_cons] at hx
      rcases hx with rfl | hx
      · exact Or.inr ⟨a, List.getElem?_cons_zero, rfl⟩
      · exact Or.inl (List.mem_cons_of_mem _ hx)
    | succ i1 =>
      simp only [setStateAt, List.mem_cons] at hx
      rcases hx with rfl | hx
      · exact Or.inl (List.mem_cons_self _ _)
      · rcases ih i1 hx with h | ⟨j, hj, hxj⟩
        · exact Or.inl (List.mem_cons_of_mem _ h)
        · exact Or.inr ⟨j, by simpa using hj, hxj⟩

theorem slotsWF_sigchld_body (s s1 : Shell) (pid : Int) (status : WStatus)
    (h : SlotsWF s.jobs) (hr : sigchld_body s pid status = some s1) : SlotsWF s1.jobs := by
  unfold sigchld_body at hr
  by_cases hp : pid > 0
  · simp only [hp, if_true] at hr
    cases status with
    | stopped sig =>
      simp only [sio_write_int, sio_write_string] at hr
      cases hg : getjobpid s.jobs pid with
      | none => simp [hg] at hr
      | some i =>
        simp only [hg, Option.some.injEq] at hr
        subst hr
        have hp1 : ¬ pid < 1 := by omega
        simp only [getjobpid, hp1, if_false] at hg
        obtain ⟨j, hj1, hj2, _⟩ := findpid_some pid s.jobs i hg
        intro x hx
        rcases mem_setStateAt i ST s.jobs x hx with hx | ⟨j1, hj3, rfl⟩
        · exact h x hx
        · rw [hj1] at hj3
          cases hj3
          have h0 : j.pid ≠ 0 := by omega
          have hu : ST ≠ UNDEF := by decide
          simp [h0, hu]
    | signaled sig =>
      simp only [sio_write_int, sio_write_string, Option.some.injEq] at hr
      subst hr
      exact slotsWF_deletejob _ pid h
    | exited code =>
      simp only [Option.some.injEq] at hr
      subst hr
      exact slotsWF_deletejob _ pid h
    | other =>
      simp only [Option.some.injEq] at hr
      subst hr
      exact h
  · simp only [hp, if_false, Option.some.injEq] at hr
    subst hr
    exact h

theorem slotsWF_runTableOps (ops : List TableOp) (s s1 : Shell) (h : SlotsWF s.jobs)
    (hops : AddsLive ops) (hr : runTableOps s ops = some s1) : SlotsWF s1.jobs := by
  induction ops generalizing s with
  | nil =>
    simp only [runTableOps, Option.some.injEq] at hr
    subst hr
    exact h
  | cons op ops ih =>
    have hops1 : AddsLive ops := fun o ho => hops o (List.mem_cons_of_mem _ ho)
    simp only [runTableOps] at hr
    cases ha : applyTableOp s op with
    | none => simp [ha] at hr
    | some s2 =>
      simp only [ha] at hr
      refine ih s2 ?_ hops1 hr
      cases op with
      | add pid state cmdline =>
        simp only [applyTableOp, Option.some.injEq] at ha
        subst ha
        exact slotsWF_addjob s pid state cmdline h (hops _ (List.mem_cons_self _ _))
      | del pid =>
        simp only [applyTableOp, Option.some.injEq] at ha
        subst ha
        exact slotsWF_deletejob s pid h
      | clear i =>
        simp only [applyTableOp, Option.some.injEq] at ha
        subst ha
        exact slotsWF_clearAt i s.jobs h
      | notify pid status =>
        exact slotsWF_sigchld_body s s2 pid status h ha

/-- C14: in every table reached from a table produced by `initjobs` through
`addjob` with state `FG`, `BG` or `ST`, `deletejob`, `clearjob` on a slot, and
the body of the handler's loop (whose stop case sets the state of a registered
job to `ST`), each slot has a nonzero pid if and only if its state is not
`UNDEF`. -/
theorem slots_wellformed_reachable (tbl : List job_t) (n v : Int) (o : List Char)
    (ops : List TableOp) (s1 : Shell) (hops : AddsLive ops)
    (hr : runTableOps { jobs := initjobs tbl, nextjid := n, verbose := v, out := o } ops =
      some s1) :
    ∀ j ∈ s1.jobs, (j.pid ≠ 0 ↔ j.state ≠ UNDEF) :=
  slotsWF_runTableOps ops _ s1 (slotsWF_init tbl) hops hr

theorem slots_wellformed_reachable_witness :
    AddsLive [.add 101 FG "sleep 100\n".toList, .add 102 BG "ls &\n".toList,
        .notify 101 (.stopped 20), .del 102, .clear 5] ∧
    runTableOps { jobs := initjobs [freeSlot, freeSlot], nextjid := 1, verbose := 0, out := [] }
        [.add 101 FG "sleep 100\n".toList, .add 102 BG "ls &\n".toList,
          .notify 101 (.stopped 20), .del 102, .clear 5] =
      some { jobs := [{ pid := 101, jid := 1, state := ST, cmdline := "sleep 100\n".toList },
                      freeSlot],
             nextjid := 2, verbose := 0,
             out := "Job [1] (101) stopped by signal 20\n".toList } ∧
    ∀ j ∈ [({ pid := 101, jid := 1, state := ST, cmdline := "sleep 100\n".toList } : job_t),
           freeSlot], (j.pid ≠ 0 ↔ j.state ≠ UNDEF) :=
  ⟨by decide, by decide,
   slots_wellformed_reachable [freeSlot, freeSlot] 1 0 []
     [.add 101 FG "sleep 100\n".toList, .add 102 BG "ls &\n".toList,
       .notify 101 (.stopped 20), .del 102, .clear 5]
     { jobs := [{ pid := 101, jid := 1, state := ST, cmdline := "sleep 100\n".toList },
                freeSlot],
       nextjid := 2, verbose := 0,
       out := "Job [1] (101) stopped by signal 20\n".toList }
     (by decide) (by decide)⟩

/-! ## The foreground wait -/

theorem waitfgPolls_some_iff (pid : Int) (snaps : List (List job_t)) (k : Nat) :
    waitfgPolls pid snaps = some k ↔
      (∃ snap, snaps[k]? = some snap ∧ fgpid snap ≠ pid) ∧
      ∀ (i : Nat) (x : List job_t), i < k → snaps[i]? = some x → fgpid x = pid := by
  induction snaps generalizing k with
  | nil => simp [waitfgPolls]
  | cons a rest ih =>
    by_cases ha : fgpid a = pid
    · simp only [waitfgPolls, ha, if_true, Option.map_eq_some']
      constructor
      · rintro ⟨k1, hk1, rfl⟩
        obtain ⟨⟨snap, hs1, hs2⟩, hall⟩ := (ih k1).1 hk1
        refine ⟨⟨snap, by simpa using hs1, hs2⟩, ?_⟩
        intro i x hi hx
        cases i with
        | zero =>
          simp only [List.getElem?_cons_zero, Option.some.injEq] at hx
          subst hx
          exact ha
        | succ i1 =>
          simp only [List.getElem?_cons_succ] at hx
          exact hall i1 x (by omega) hx
      · rintro ⟨⟨snap, hs1, hs2⟩, hall⟩
        cases k with
        | zero =>
          simp only [List.getElem?_cons_zero, Option.some.injEq] at hs1
          subst hs1
          exact absurd ha hs2
        | succ k1 =>
          simp only [List.getElem?_cons_succ] at hs1
          refine ⟨k1, (ih k1).2 ⟨⟨snap, hs1, hs2⟩, ?_⟩, rfl⟩
          intro i x hi hx
          exact hall (i + 1) x (by omega) (by simpa using hx)
    · simp only [waitfgPolls, ha, if_false, Option.some.injEq]
      constructor
      · rintro rfl
        exact ⟨⟨a, List.getElem?_cons_zero, ha⟩, fun i x hi _ => absurd hi (Nat.not_lt_zero i)⟩
      · rintro ⟨_, hall⟩
        cases k with
        | zero => rfl
        | succ k1 => exact absurd (hall 0 a (by omega) List.getElem?_cons_zero) ha

/-- C15, as the claim states it, fails: in a snapshot with two slots in state
`FG`, pids 5 and 7, `fgpid` is 5, so `waitfg(7)` returns at once although the
job with pid 7 is in the table in state `FG`. -/
theorem waitfg_returns_while_job_fg :
    fgpid [{ pid := 5, jid := 1, state := FG, cmdline := [] },
           { pid := 7, jid := 2, state := FG, cmdline := [] }] = 5 ∧
    waitfgPolls 7 [[{ pid := 5, jid := 1, state := FG, cmdline := [] },
                    { pid := 7, jid := 2, state := FG, cmdline := [] }]] = some 0 ∧
    ({ pid := 7, jid := 2, state := FG, cmdline := [] } : job_t) ∈
      [({ pid := 5, jid := 1, state := FG, cmdline := [] } : job_t),
       { pid := 7, jid := 2, state := FG, cmdline := [] }] := by
  decide

/-- C15 (amended): against a sequence of snapshots of the job table that each
have at most one slot in state `FG`, `waitfg(pid)` returns at snapshot `k`
exactly when `k` is the first snapshot in which `fgpid` differs from `pid`, and
in that snapshot no slot with that pid is in state `FG`: the job has been
removed or has left the foreground. -/
theorem waitfg_postcondition (pid : Int) (snaps : List (List job_t)) (k : Nat)
    (hone : ∀ snap ∈ snaps, AtMostOneFG snap) :
    (waitfgPolls pid snaps = some k ↔
      (∃ snap, snaps[k]? = some snap ∧ fgpid snap ≠ pid) ∧
      ∀ (i : Nat) (x : List job_t), i < k → snaps[i]? = some x → fgpid x = pid) ∧
    (waitfgPolls pid snaps = some k →
      ∃ snap, snaps[k]? = some snap ∧ ∀ j ∈ snap, j.pid = pid → j.state ≠ FG) := by
  refine ⟨waitfgPolls_some_iff pid snaps k, ?_⟩
  intro h
  obtain ⟨⟨snap, hs1, hs2⟩, _⟩ := (waitfgPolls_some_iff pid snaps k).1 h
  refine ⟨snap, hs1, ?_⟩
  intro j hj hp hfg
  have := fgpid_of_fg snap (hone snap (List.getElem?_mem hs1)) j hj hfg
  exact hs2 (by rw [this, hp])

theorem waitfg_postcondition_witness :
    (∀ snap ∈ [[({ pid := 7, jid := 1, state := FG, cmdline := [] } : job_t)],
               [{ pid := 7, jid := 1, state := FG, cmdline := [] }],
               [{ pid := 7, jid := 1, state := ST, cmdline := [] }]], AtMostOneFG snap) ∧
    ((waitfgPolls 7 [[({ pid := 7, jid := 1, state := FG, cmdline := [] } : job_t)],
               [{ pid := 7, jid := 1, state := FG, cmdline := [] }],
               [{ pid := 7, jid := 1, state := ST, cmdline := [] }]] = some 2 ↔
      (∃ snap, [[({ pid := 7, jid := 1, state := FG, cmdline := [] } : job_t)],
               [{ pid := 7, jid := 1, state := FG, cmdline := [] }],
               [{ pid := 7, jid := 1, state := ST, cmdline := [] }]][2]? = some snap ∧
          fgpid snap ≠ 7) ∧
      ∀ (i : Nat) (x : List job_t), i < 2 →
        [[({ pid := 7, jid := 1, state := FG, cmdline := [] } : job_t)],
               [{ pid := 7, jid := 1, state := FG, cmdline := [] }],
               [{ pid := 7, jid := 1, state := ST, cmdline := [] }]][i]? = some x →
        fgpid x = 7) ∧
    (waitfgPolls 7 [[({ pid := 7, jid := 1, state := FG, cmdline := [] } : job_t)],
               [{ pid := 7, jid := 1, state := FG, cmdline := [] }],
               [{ pid := 7, jid := 1, state := ST, cmdline := [] }]] = some 2 →
      ∃ snap, [[({ pid := 7, jid := 1, state := FG, cmdline := [] } : job_t)],
               [{ pid := 7, jid := 1, state := FG, cmdline := [] }],
               [{ pid := 7, jid := 1, state := ST, cmdline := [] }]][2]? = some snap ∧
        ∀ j ∈ snap, j.pid = 7 → j.state ≠ FG)) :=
  ⟨by decide, waitfg_postcondition 7 _ 2 (by decide)⟩

/-- The wait of the witness does return, at the third snapshot. -/
theorem waitfg_example :
    waitfgPolls 7 [[({ pid := 7, jid := 1, state := FG, cmdline := [] } : job_t)],
               [{ pid := 7, jid := 1, state := FG, cmdline := [] }],
               [{ pid := 7, jid := 1, state := ST, cmdline := [] }]] = some 2 ∧
    waitfgPolls 7 [[({ pid := 7, jid := 1, state := FG, cmdline := [] } : job_t)]] = none := by
  decide

/-! ## The job listing -/

theorem listjobsEntry_live (i : Nat) (j : job_t) (hp : j.pid ≠ 0)
    (hst : j.state = BG ∨ j.state = FG ∨ j.state = ST) :
    listjobsEntry i j = listingEntry j := by
  unfold listjobsEntry listingEntry stateWord
  rcases hst with h | h | h
  · simp [hp, h]
  · simp [hp, h, FG, BG]
  · simp [hp, h, ST, FG, BG]

theorem listjobsLoop_eq_spec (l : List job_t) (i : Nat)
    (h : ∀ j ∈ l, j.pid ≠ 0 → j.state = BG ∨ j.state = FG ∨ j.state = ST) :
    listjobsLoop i l = listingSpec l := by
  induction l generalizing i with
  | nil => rfl
  | cons a rest ih =>
    have hrest := ih (i + 1) (fun j hj => h j (List.mem_cons_of_mem _ hj))
    by_cases ha : a.pid = 0
    · simp only [listjobsLoop, hrest, listingSpec, listjobsEntry, ha, ne_eq, not_true_eq_false,
        if_false, List.nil_append, decide_False, List.filter_cons_of_neg, Bool.false_eq_true,
        not_false_eq_true]
    · have he := listjobsEntry_live i a ha (h a (List.mem_cons_self _ _) ha)
      simp only [listjobsLoop, hrest, he, listingSpec, ne_eq, ha, not_false_eq_true,
        decide_True, List.filter_cons_of_pos, List.map_cons, List.flatten_cons]

/-- C16, as the claim states it, fails: for a slot with a nonzero pid whose
state is none of `BG`, `FG`, `ST` (here 7) the entry has no state word but the
text of the `default` branch. -/
theorem listjobs_other_state :
    (listjobs (addjob (initShell 0) 101 7 "x\n".toList).2).out =
      "[1] (101) listjobs: Internal error: job[0].state=7 x\n".toList := by
  decide

/-- C16 (amended): for every table in which each slot with a nonzero pid is in
state `BG`, `FG` or `ST`, `listjobs` leaves the table unchanged and prints, in
increasing slot order, exactly one entry "[jid] (pid) StateWord cmdline" for
each slot with a nonzero pid and nothing for the other slots, the state word
being "Running" for `BG`, "Foreground" for `FG` and "Stopped" for `ST`. -/
theorem listjobs_prints_listing (s : Shell)
    (h : ∀ j ∈ s.jobs, j.pid ≠ 0 → j.state = BG ∨ j.state = FG ∨ j.state = ST) :
    listjobs s = { s with out := s.out ++ listingSpec s.jobs } := by
  unfold listjobs
  rw [listjobsLoop_eq_spec s.jobs 0 h]

theorem listjobs_prints_listing_witness :
    (∀ j ∈ (addjob (addjob (initShell 0) 101 BG "ls &\n".toList).2 102 ST
        "sleep 100\n".toList).2.jobs, j.pid ≠ 0 → j.state = BG ∨ j.state = FG ∨ j.state = ST) ∧
    listjobs (addjob (addjob (initShell 0) 101 BG "ls &\n".toList).2 102 ST
        "sleep 100\n".toList).2 =
      { (addjob (addjob (initShell 0) 101 BG "ls &\n".toList).2 102 ST
          "sleep 100\n".toList).2 with
        out := (addjob (addjob (initShell 0) 101 BG "ls &\n".toList).2 102 ST
            "sleep 100\n".toList).2.out ++
          listingSpec (addjob (addjob (initShell 0) 101 BG "ls &\n".toList).2 102 ST
            "sleep 100\n".toList).2.jobs } :=
  ⟨by decide, listjobs_prints_listing _ (by decide)⟩

/-- The listing of the witness, as text. -/
theorem listjobs_example :
    (listjobs (addjob (addjob (initShell 0) 101 BG "ls &\n".toList).2 102 ST
        "sleep 100\n".toList).2).out =
      "[1] (101) Running ls &\n[2] (102) Stopped sleep 100\n".toList := by
  decide

/-! ## Integer-to-text conversion at the ends of the range -/

theorem toDigits_length_le (m : Nat) (h : m < 10 ^ 10) : (Nat.toDigits 10 m).length ≤ 10 :=
  Nat.toDigitsCore_length 10 (by decide) (m + 1) m 10 h (by decide)

/-- For every `int` other than `INT_MIN`, `sio_itos` yields the decimal numeral
and at most 11 characters. -/
theorem sio_itos_canonical (n : Int) (h1 : -2147483648 < n) (h2 : n < 2147483648) :
    sio_itos n = fmt_d n ∧ (sio_itos n).length ≤ 11 := by
  refine ⟨sio_itos_eq_fmt_d n h1, ?_⟩
  rw [sio_itos_eq_fmt_d n h1]
  unfold fmt_d
  by_cases hneg : n < 0
  · have := toDigits_length_le n.natAbs (by omega)
    simp only [hneg, if_true, List.length_cons]
    omega
  · have := toDigits_length_le n.toNat (by omega)
    simp only [hneg, if_false]
    omega

/-- C17 (the code at the failing input): for `INT_MIN` the product
`num * -1` wraps back to `INT_MIN`, the digit loop then computes negative
remainders, and the text is not the decimal numeral "-2147483648". -/
theorem sio_itos_int_min :
    wrap32 (-2147483648 * -1) = -2147483648 ∧
    sio_itos (-2147483648) = "-./,),(-*,(".toList ∧
    fmt_d (-2147483648) = "-2147483648".toList ∧
    sio_itos (-2147483648) ≠ fmt_d (-2147483648) := by
  decide

/-! ## The argument-vector bound -/

set_option maxRecDepth 1000000 in
/-- C19 (the code at the failing input): on a line of 256 characters made of
128 one-letter arguments `parseline` stores 128 pointers, `argv[0 .. 127]`, and
then writes the terminating `NULL` at index 128, which is `MAXARGS`. -/
theorem parseline_overruns_argv :
    manyArgsLine.length = 256 ∧ manyArgsLine.length < MAXLINE ∧
    (parseline_split manyArgsLine).map (fun r => r.2.length) = some 128 ∧
    (parseline manyArgsLine).map (fun p => (p.ret, p.argv.length)) = some (0, 128) ∧
    ¬ (128 < MAXARGS) := by
  decide

/-! ## Insert/remove round trip -/

theorem split_of_getElem? {α : Type} (l : List α) (i : Nat) (j : α) (h : l[i]? = some j) :
    ∃ pre post, l = pre ++ j :: post ∧ pre.length = i := by
  induction l generalizing i with
  | nil => simp at h
  | cons a rest ih =>
    cases i with
    | zero =>
      simp only [List.getElem?_cons_zero, Option.some.injEq] at h
      subst h
      exact ⟨[], rest, rfl, rfl⟩
    | succ i1 =>
      simp only [List.getElem?_cons_succ] at h
      obtain ⟨pre, post, h1, h2⟩ := ih i1 h
      exact ⟨a :: pre, post, by simp [h1], by simp [h2]⟩

theorem addjobLoop_split (pid state jid : Int) (cmdline : List Char) (pre : List job_t)
    (j : job_t) (post : List job_t) (hj : j.pid = 0) (hpre : ∀ x ∈ pre, x.pid ≠ 0) :
    addjobLoop pid state jid cmdline (pre ++ j :: post) =
      some (pre ++ { pid := pid, jid := jid, state := state, cmdline := cmdline } :: post) := by
  induction pre with
  | nil => simp [addjobLoop, hj]
  | cons a pre ih =>
    have ha : a.pid ≠ 0 := hpre a (List.mem_cons_self _ _)
    have := ih (fun x hx => hpre x (List.mem_cons_of_mem _ hx))
    simp [addjobLoop, ha, this]

/-- C20, as the claim states it, fails: a slot with pid 0 that still holds
jid 7, state `BG` and a command line is free for `addjob`, and after
`addjob(5, ..)` and `deletejob(5)` it is cleared, not restored. -/
theorem roundtrip_clears_stale_slot :
    (addjob staleSlotShell 5 FG "x\n".toList).1 = 1 ∧
    (deletejob (addjob staleSlotShell 5 FG "x\n".toList).2 5).1 = 1 ∧
    (deletejob (addjob staleSlotShell 5 FG "x\n".toList).2 5).2.jobs = [freeSlot] ∧
    (deletejob (addjob staleSlotShell 5 FG "x\n".toList).2 5).2.jobs ≠ staleSlotShell.jobs := by
  decide

/-- C20 (amended): for every table whose lowest-indexed slot with pid 0 is in
the free state (jid 0, state `UNDEF`, empty command line) and which has no slot
with pid `p`, where `p >= 1`, `addjob(p, state, cmdline)` followed by
`deletejob(p)` returns 1 both times, leaves every slot with the value it had
before the `addjob`, and leaves `nextjid` one more than the maximum jid in the
table. -/
theorem add_delete_roundtrip (s : Shell) (p state : Int) (cmdline : List Char) (i : Nat)
    (hp : 1 ≤ p) (hi : s.jobs[i]? = some freeSlot)
    (hfirst : ∀ (k : Nat) (x : job_t), k < i → s.jobs[k]? = some x → x.pid ≠ 0)
    (hnew : ∀ j ∈ s.jobs, j.pid ≠ p) :
    (addjob s p state cmdline).1 = 1 ∧
    (deletejob (addjob s p state cmdline).2 p).1 = 1 ∧
    (deletejob (addjob s p state cmdline).2 p).2.jobs = s.jobs ∧
    ∃ m, (∀ x ∈ s.jobs, x.jid ≤ m) ∧ (∃ x ∈ s.jobs, x.jid = m) ∧
      (deletejob (addjob s p state cmdline).2 p).2.nextjid = m + 1 := by
  obtain ⟨pre, post, h1, h2⟩ := split_of_getElem? s.jobs i freeSlot hi
  have hpre0 : ∀ x ∈ pre, x.pid ≠ 0 := by
    intro x hx
    obtain ⟨k, hk⟩ := List.mem_iff_getElem?.1 hx
    have hlt : k < pre.length := by
      rcases List.getElem?_eq_some.1 hk with ⟨hlt, _⟩
      exact hlt
    refine hfirst k x (by omega) ?_
    rw [h1, List.getElem?_append_left hlt]
    exact hk
  have hprep : ∀ x ∈ pre, x.pid ≠ p := fun x hx => hnew x (by rw [h1]; simp [hx])
  have hp1 : ¬ p < 1 := by omega
  have hadd := addjobLoop_split p state s.nextjid cmdline pre freeSlot post rfl hpre0
  have hdel := deletejobLoop_split p pre
    { pid := p, jid := s.nextjid, state := state, cmdline := cmdline } post rfl hprep
  rw [← h1] at hadd
  have hmem : freeSlot ∈ s.jobs := by rw [h1]; simp
  have hjobs : pre ++ clearjob
      { pid := p, jid := s.nextjid, state := state, cmdline := cmdline } :: post = s.jobs := by
    rw [h1]; rfl
  have hstep : deletejob (addjob s p state cmdline).2 p =
      (1, { jobs := s.jobs, nextjid := maxjid s.jobs + 1, verbose := s.verbose,
            out := (addjob s p state cmdline).2.out }) := by
    simp only [addjob, hp1, if_false, hadd, deletejob, hdel, hjobs]
  refine ⟨?_, ?_, ?_, maxjid s.jobs, maxjidLoop_ge_mem s.jobs 0, ?_, ?_⟩
  · simp only [addjob, hp1, if_false, hadd]
  · rw [hstep]
  · rw [hstep]
  · rcases maxjidLoop_attained s.jobs 0 with h0 | h0
    · exact ⟨freeSlot, hmem, by rw [maxjid, h0]; rfl⟩
    · exact h0
  · rw [hstep]

theorem add_delete_roundtrip_witness :
    (1 : Int) ≤ 103 ∧
    (addjob (initShell 0) 101 BG "ls &\n".toList).2.jobs[1]? = some freeSlot ∧
    (addjob (addjob (initShell 0) 101 BG "ls &\n".toList).2 103 FG "sleep 9\n".toList).1 = 1 ∧
    (deletejob (addjob (addjob (initShell 0) 101 BG "ls &\n".toList).2 103 FG
        "sleep 9\n".toList).2 103).1 = 1 ∧
    (deletejob (addjob (addjob (initShell 0) 101 BG "ls &\n".toList).2 103 FG
        "sleep 9\n".toList).2 103).2.jobs = (addjob (initShell 0) 101 BG "ls &\n".toList).2.jobs ∧
    ∃ m, (∀ x ∈ (addjob (initShell 0) 101 BG "ls &\n".toList).2.jobs, x.jid ≤ m) ∧
      (∃ x ∈ (addjob (initShell 0) 101 BG "ls &\n".toList).2.jobs, x.jid = m) ∧
      (deletejob (addjob (addjob (initShell 0) 101 BG "ls &\n".toList).2 103 FG
        "sleep 9\n".toList).2 103).2.nextjid = m + 1 :=
  ⟨by decide, by decide,
    add_delete_roundtrip (addjob (initShell 0) 101 BG "ls &\n".toList).2 103 FG
      "sleep 9\n".toList 1 (by decide) (by decide)
      (by
        intro k x hk hx
        have hk0 : k = 0 := by omega
        subst hk0
        have : x = { pid := 101, jid := 1, state := BG, cmdline := "ls &\n".toList } := by
          have h0 : (addjob (initShell 0) 101 BG "ls &\n".toList).2.jobs[0]? =
              some { pid := 101, jid := 1, state := BG, cmdline := "ls &\n".toList } := by
            decide
          rw [h0] at hx
          exact (Option.some.inj hx).symm
        subst this
        decide)
      (by decide)⟩

/-! ## The handler as a whole -/

theorem sigchld_body_quiet (s : Shell) (pid : Int) (status : WStatus) (h : pid ≤ 0) :
    sigchld_body s pid status = some s := by
  have : ¬ pid > 0 := by omega
  simp [sigchld_body, this]

theorem sigchld_loop_quiet (waitpid : Nat → Int → Int × WStatus) (is : List Nat) (s : Shell)
    (hin : ∀ i ∈ is, i < s.jobs.length) (hq : ∀ i ∈ is, ∀ q, (waitpid i q).1 ≤ 0) :
    sigchld_loop waitpid is s = some s := by
  induction is with
  | nil => rfl
  | cons i is ih =>
    have hi := hin i (List.mem_cons_self _ _)
    obtain ⟨j, hj⟩ : ∃ j, s.jobs[i]? = some j := ⟨s.jobs[i], List.getElem?_eq_getElem hi⟩
    simp only [sigchld_loop, hj, sigchld_body_quiet s _ _ (hq i (List.mem_cons_self _ _) j.pid)]
    exact ih (fun x hx => hin x (List.mem_cons_of_mem _ hx))
      (fun x hx => hq x (List.mem_cons_of_mem _ hx))

/-- The run of the witness: job 2, the foreground job 22203, is reported
stopped by signal 20 at the second call of `waitpid`; the handler writes the
notice and leaves job 1 alone. -/
theorem sigchld_handler_example :
    (sigchld_handler
        (addjob (addjob (initShell 0) 101 BG "ls &\n".toList).2 22203 FG
          "sleep 100\n".toList).2
        (fun i _ => if i = 1 then (22203, WStatus.stopped 20) else (0, WStatus.other))).map
      (fun s => (s.out, s.jobs.take 3)) =
    some ("Job [2] (22203) stopped by signal 20\n".toList,
      [{ pid := 101, jid := 1, state := BG, cmdline := "ls &\n".toList },
       { pid := 22203, jid := 2, state := ST, cmdline := "sleep 100\n".toList },
       freeSlot]) := by
  decide

/-! ## The background flag from the tokens of the line -/

theorem scanTokens_word (w : List Char) (acc r : List Char) (hw : ' ' ∉ w) :
    scanTokens (.word acc) (w ++ ' ' :: r) = (acc.reverse ++ w) :: scanTokens .between r := by
  induction w generalizing acc with
  | nil => simp [scanTokens]
  | cons x w ih =>
    have hx : x ≠ ' ' := fun h => hw (by simp [h])
    have := ih (x :: acc) (fun h => hw (List.mem_cons_of_mem _ h))
    simp [scanTokens, hx, this]

theorem scanTokens_word_open (w : List Char) (acc : List Char) (hw : ' ' ∉ w) :
    scanTokens (.word acc) w = [] := by
  induction w generalizing acc with
  | nil => simp [scanTokens]
  | cons x w ih =>
    have hx : x ≠ ' ' := fun h => hw (by simp [h])
    have := ih (x :: acc) (fun h => hw (List.mem_cons_of_mem _ h))
    simp [scanTokens, hx, this]

theorem scanTokens_quoted (w : List Char) (acc r : List Char) (hw : SQUOTE ∉ w) :
    scanTokens (.quoted acc) (w ++ SQUOTE :: r) =
      (acc.reverse ++ w) :: scanTokens .between r := by
  induction w generalizing acc with
  | nil => simp [scanTokens]
  | cons x w ih =>
    have hx : x ≠ SQUOTE := fun h => hw (by simp [h])
    have := ih (x :: acc) (fun h => hw (List.mem_cons_of_mem _ h))
    simp [scanTokens, hx, this]

theorem scanTokens_quoted_open (w : List Char) (acc : List Char) (hw : SQUOTE ∉ w) :
    scanTokens (.quoted acc) w = [] := by
  induction w generalizing acc with
  | nil => simp [scanTokens]
  | cons x w ih =>
    have hx : x ≠ SQUOTE := fun h => hw (by simp [h])
    have := ih (x :: acc) (fun h => hw (List.mem_cons_of_mem _ h))
    simp [scanTokens, hx, this]

theorem scanTokens_spaces (k : Nat) (r : List Char) :
    scanTokens .between (List.replicate k ' ' ++ r) = scanTokens .between r := by
  induction k with
  | zero => simp
  | succ k ih => simp [List.replicate_succ, scanTokens, ih]

theorem first_occurrence (c : Char) (l : List Char) (h : c ∈ l) :
    ∃ w r, l = w ++ c :: r ∧ c ∉ w := by
  induction l with
  | nil => cases h
  | cons x l ih =>
    by_cases hx : x = c
    · exact ⟨[], l, by simp [hx], by simp⟩
    · rcases List.mem_cons.1 h with h1 | h1
      · exact absurd h1.symm hx
      · obtain ⟨w, r, h2, h3⟩ := ih h1
        refine ⟨x :: w, r, by simp [h2], ?_⟩
        intro hm
        rcases List.mem_cons.1 hm with h4 | h4
        · exact hx h4.symm
        · exact h3 h4

theorem leading_spaces (l : List Char) :
    ∃ k r, l = List.replicate k ' ' ++ r ∧ r.head? ≠ some ' ' := by
  induction l with
  | nil => exact ⟨0, [], rfl, by simp⟩
  | cons x l ih =>
    by_cases hx : x = ' '
    · obtain ⟨k, r, h1, h2⟩ := ih
      exact ⟨k + 1, r, by simp [List.replicate_succ, hx, h1], h2⟩
    · exact ⟨0, x :: l, rfl, by simp [hx]⟩

theorem strchrFrom_absent (c : Char) (w : List Char) (hc : c ∉ w) (hne : c ≠ NUL) :
    strchrFrom c (w ++ [NUL]) = none := by
  induction w with
  | nil => simp [strchrFrom, hne.symm]
  | cons x w ih =>
    have hx : x ≠ c := fun h => hc (by simp [h])
    have := ih (fun h => hc (List.mem_cons_of_mem _ h))
    simp [strchrFrom, hx, this]

theorem strchr_absent (A w : List Char) (c : Char) (hc : c ∉ w) (hne : c ≠ NUL) :
    strchr (A ++ (w ++ [NUL])) A.length c = none := by
  simp only [strchr, List.drop_left, strchrFrom_absent c w hc hne, Option.map_none']

theorem head_append_nul (r : List Char) (h : r.head? ≠ some ' ') :
    (r ++ [NUL]).head? ≠ some ' ' := by
  cases r with
  | nil => simp [NUL]
  | cons x r => simpa using h

/-- The loop of `parseline` on a buffer that holds, from offset `pre.length` on,
any text without NUL that does not start with a space: the strings at the
pointers it stores are the tokens the scan finds in that text. -/
theorem parseLoop_scan (n : Nat) :
    ∀ (rest : List Char), rest.length ≤ n → NUL ∉ rest → rest.head? ≠ some ' ' →
      ∀ (fuel : Nat) (pre : List Char) (argv : List Nat), rest.length ≤ fuel →
        ∃ body ptrs,
          parseLoop fuel (pre ++ (rest ++ [NUL]))
              (findDelim (pre ++ (rest ++ [NUL])) pre.length).1
              (findDelim (pre ++ (rest ++ [NUL])) pre.length).2 argv =
            some (pre ++ body, argv ++ ptrs) ∧
          ptrs.map (cstrAt (pre ++ body)) = scanTokens .between rest := by
  induction n with
  | zero =>
    intro rest hlen _ _ fuel pre argv _
    have hnil : rest = [] := List.length_eq_zero.1 (by omega)
    subst hnil
    refine ⟨[NUL], [], ?_, rfl⟩
    have hpk : peek (pre ++ [NUL]) pre.length ≠ SQUOTE := by
      rw [peek_split]; decide
    have hs : strchr (pre ++ [NUL]) pre.length ' ' = none := by
      simp [strchr, List.drop_left, strchrFrom, NUL]
    simp only [List.nil_append, findDelim, hpk, if_false, hs, List.append_nil]
    cases fuel <;> rfl
  | succ n ih =>
    intro rest hlen hnul hhead fuel pre argv hfuel
    cases rest with
    | nil => exact ih [] (by simp) hnul hhead fuel pre argv (by simp)
    | cons c cs =>
      have hc : c ≠ ' ' := fun h => hhead (by simp [h])
      have hcs : NUL ∉ cs := fun h => hnul (List.mem_cons_of_mem _ h)
      obtain ⟨fuel1, rfl⟩ : ∃ f, fuel = f + 1 :=
        ⟨fuel - 1, by simp only [List.length_cons] at hfuel; omega⟩
      simp only [List.length_cons] at hlen hfuel
      by_cases hq : c = SQUOTE
      · subst hq
        by_cases hmem : SQUOTE ∈ cs
        · obtain ⟨w, r, hsplit, hw⟩ := first_occurrence SQUOTE cs hmem
          obtain ⟨k, r1, hr, hr1⟩ := leading_spaces r
          subst hr
          subst hsplit
          have hwn : NUL ∉ w := fun h => hcs (by simp [h])
          have hr1n : NUL ∉ r1 := fun h => hcs (by simp [h])
          have hlen1 : r1.length ≤ n := by
            simp only [List.length_append, List.length_cons, List.length_replicate] at hlen
            omega
          have hfuel1 : r1.length ≤ fuel1 := by
            simp only [List.length_append, List.length_cons, List.length_replicate] at hfuel
            omega
          have hbuf : pre ++ (SQUOTE :: (w ++ SQUOTE :: (List.replicate k ' ' ++ r1)) ++ [NUL]) =
              pre ++ SQUOTE :: (w ++ SQUOTE :: (List.replicate k ' ' ++ (r1 ++ [NUL]))) := by
            simp [List.append_assoc]
          have hbuf2 : pre ++ SQUOTE :: (w ++ SQUOTE ::
                (List.replicate k ' ' ++ (r1 ++ [NUL]))) =
              (pre ++ [SQUOTE]) ++ (w ++ SQUOTE ::
                (List.replicate k ' ' ++ (r1 ++ [NUL]))) := by
            simp [List.append_assoc]
          rw [hbuf, findDelim_quoted pre w _ hw hwn]
          simp only
          have hl : pre.length + 1 = (pre ++ [SQUOTE]).length := by simp
          rw [hbuf2, hl, parseLoop_step fuel1 (pre ++ [SQUOTE]) w SQUOTE k _ argv
            (head_append_nul r1 hr1)]
          obtain ⟨body1, ptrs1, h1, h2⟩ :=
            ih r1 hlen1 hr1n hr1 fuel1 ((pre ++ [SQUOTE]) ++ (w ++ NUL :: List.replicate k ' '))
              (argv ++ [(pre ++ [SQUOTE]).length]) hfuel1
          have hb : (pre ++ [SQUOTE]) ++ (w ++ NUL :: List.replicate k ' ') ++ body1 =
              pre ++ SQUOTE :: (w ++ NUL :: (List.replicate k ' ' ++ body1)) := by
            simp [List.append_assoc]
          have hb2 : pre ++ SQUOTE :: (w ++ NUL :: (List.replicate k ' ' ++ body1)) =
              (pre ++ [SQUOTE]) ++ (w ++ NUL :: (List.replicate k ' ' ++ body1)) := by
            simp [List.append_assoc]
          have hscan : scanTokens .between
              (SQUOTE :: (w ++ SQUOTE :: (List.replicate k ' ' ++ r1))) =
              w :: scanTokens .between r1 := by
            have hsq : SQUOTE ≠ ' ' := by decide
            simp only [scanTokens, hsq, if_false, if_true, scanTokens_quoted w [] _ hw,
              scanTokens_spaces, List.reverse_nil, List.nil_append]
          refine ⟨SQUOTE :: (w ++ NUL :: (List.replicate k ' ' ++ body1)),
            (pre ++ [SQUOTE]).length :: ptrs1, ?_, ?_⟩
          · rw [h1, hb]
            simp [List.append_assoc]
          · rw [hb] at h2
            rw [hscan]
            simp only [List.map_cons, h2]
            rw [hb2, cstrAt_split (pre ++ [SQUOTE]) w _ hwn]
        · have hpk : peek (pre ++ (SQUOTE :: cs ++ [NUL])) pre.length = SQUOTE := by
            rw [List.cons_append, peek_split]
          have hs : strchr (pre ++ (SQUOTE :: cs ++ [NUL])) (pre.length + 1) SQUOTE = none := by
            have := strchr_absent (pre ++ [SQUOTE]) cs SQUOTE hmem (by decide)
            simpa [List.append_assoc] using this
          have hsq : SQUOTE ≠ ' ' := by decide
          refine ⟨SQUOTE :: cs ++ [NUL], [], ?_, ?_⟩
          · simp only [findDelim, hpk, if_true, hs, parseLoop, List.append_nil]
          · simp only [List.map_nil, scanTokens, hsq, if_false, if_true,
              scanTokens_quoted_open cs [] hmem]
      · by_cases hmem : ' ' ∈ c :: cs
        · obtain ⟨w, r, hsplit, hw⟩ := first_occurrence ' ' (c :: cs) hmem
          obtain ⟨k, r1, hr, hr1⟩ := leading_spaces r
          subst hr
          have hwne : w ≠ [] := by
            intro h
            subst h
            simp only [List.nil_append, List.cons.injEq] at hsplit
            exact hc hsplit.1
          obtain ⟨w1, hw1⟩ : ∃ w1, w = c :: w1 := by
            cases w with
            | nil => exact absurd rfl hwne
            | cons x w1 =>
              simp only [List.cons_append, List.cons.injEq] at hsplit
              exact ⟨w1, by rw [hsplit.1]⟩
          have hwn : NUL ∉ w := fun h => hnul (by rw [hsplit]; simp [h])
          have hr1n : NUL ∉ r1 := fun h => hnul (by rw [hsplit]; simp [h])
          have hwq : w.head? ≠ some SQUOTE := by
            rw [hw1]
            simpa using hq
          have hl := congrArg List.length hsplit
          simp only [List.length_append, List.length_cons, List.length_replicate] at hl
          have hwl : 0 < w.length := List.length_pos.2 hwne
          have hlen1 : r1.length ≤ n := by omega
          have hfuel1 : r1.length ≤ fuel1 := by omega
          have hbuf : pre ++ (c :: cs ++ [NUL]) =
              pre ++ (w ++ ' ' :: (List.replicate k ' ' ++ (r1 ++ [NUL]))) := by
            rw [hsplit]
            simp [List.append_assoc]
          rw [hbuf, findDelim_plain pre w _ hwne hw hwn hwq]
          simp only
          rw [parseLoop_step fuel1 pre w ' ' k _ argv (head_append_nul r1 hr1)]
          obtain ⟨body1, ptrs1, h1, h2⟩ :=
            ih r1 hlen1 hr1n hr1 fuel1 (pre ++ (w ++ NUL :: List.replicate k ' '))
              (argv ++ [pre.length]) hfuel1
          have hb : pre ++ (w ++ NUL :: List.replicate k ' ') ++ body1 =
              pre ++ (w ++ NUL :: (List.replicate k ' ' ++ body1)) := by
            simp [List.append_assoc]
          have hscan : scanTokens .between (c :: cs) = w :: scanTokens .between r1 := by
            have hw1s : ' ' ∉ w1 := fun h => hw (by rw [hw1]; exact List.mem_cons_of_mem _ h)
            have e : c :: cs = c :: (w1 ++ ' ' :: (List.replicate k ' ' ++ r1)) := by
              rw [hsplit, hw1]; rfl
            rw [e, hw1]
            simp only [scanTokens, hc, hq, if_false]
            rw [scanTokens_word w1 [c] _ hw1s, scanTokens_spaces]
            rfl
          refine ⟨w ++ NUL :: (List.replicate k ' ' ++ body1), pre.length :: ptrs1, ?_, ?_⟩
          · rw [h1, hb]
            simp [List.append_assoc]
          · rw [hb] at h2
            rw [hscan]
            simp only [List.map_cons, h2, cstrAt_split pre w _ hwn]
        · have hpk : peek (pre ++ (c :: cs ++ [NUL])) pre.length ≠ SQUOTE := by
            rw [List.cons_append, peek_split]
            exact hq
          have hs : strchr (pre ++ (c :: cs ++ [NUL])) pre.length ' ' = none :=
            strchr_absent pre (c :: cs) ' ' hmem (by decide)
          have hcs1 : ' ' ∉ cs := fun h => hmem (List.mem_cons_of_mem _ h)
          refine ⟨c :: cs ++ [NUL], [], ?_, ?_⟩
          · simp only [findDelim, hpk, if_false, hs, parseLoop, List.append_nil]
          · simp only [List.map_nil, scanTokens, hc, hq, if_false,
              scanTokens_word_open cs [c] hcs1]

/-- The strings in `argv` at the end of the loop of `parseline` are the tokens
of the line. -/
theorem parseline_tokens_eq_splitLine (line : List Char) (hnul : NUL ∉ line) :
    parseline_tokens (line ++ ['\n']) = some (splitLine line) := by
  have hnl : NUL ∉ line ++ ['\n'] := by
    intro h
    rcases List.mem_append.1 h with h | h
    · exact hnul h
    · simp [NUL] at h
  obtain ⟨k, r1, hk, hr1⟩ := leading_spaces (line ++ [' '])
  have hr1n : NUL ∉ r1 := by
    intro h
    have hm : NUL ∈ line ++ [' '] := by rw [hk]; simp [h]
    rcases List.mem_append.1 hm with h1 | h1
    · exact hnul h1
    · simp [NUL] at h1
  have hlen : strlen ((line ++ ['\n']) ++ [NUL]) = (line ++ ['\n']).length := by
    unfold strlen
    rw [cstrAt_zero_append_nul _ _ hnl]
  have hpos : (line ++ ['\n']).length ≠ 0 := by simp
  have hset : ((line ++ ['\n']) ++ [NUL]).set ((line ++ ['\n']).length - 1) ' ' =
      List.replicate k ' ' ++ (r1 ++ [NUL]) := by
    have h := set_split_at line '\n' ' ' [NUL]
    have hl : (line ++ ['\n']).length - 1 = line.length := by simp
    have he : (line ++ ['\n']) ++ [NUL] = line ++ '\n' :: [NUL] := by simp
    rw [hl, he, h]
    have : line ++ ' ' :: [NUL] = (line ++ [' ']) ++ [NUL] := by simp
    rw [this, hk, List.append_assoc]
  have hskip : skipSpaces (List.replicate k ' ' ++ (r1 ++ [NUL])) 0 =
      (List.replicate k ' ').length := by
    have := skipSpaces_split [] (r1 ++ [NUL]) k (head_append_nul r1 hr1)
    simpa using this
  obtain ⟨body, ptrs, h1, h2⟩ :=
    parseLoop_scan r1.length r1 (le_refl _) hr1n hr1
      (List.replicate k ' ' ++ (r1 ++ [NUL])).length (List.replicate k ' ') []
      (by simp only [List.length_append]; omega)
  unfold parseline_tokens parseline_split
  rw [cstrAt_zero_of_nul_free _ hnl]
  simp only [hlen, hpos, if_false]
  rw [hset, hskip, h1]
  simp only [Option.map_some', List.nil_append, h2, Option.some.injEq]
  unfold splitLine
  rw [hk, scanTokens_spaces]

/-- On a command line written as tokens that are separated by spaces, the scan
finds the arguments of the tokens as written. -/
theorem splitLine_written_tokens (lead : Nat) (items : List (Token × Nat))
    (hwf : ∀ it ∈ items, it.1.WF) (hsep : SpacedOut items) :
    splitLine (List.replicate lead ' ' ++ lineBody items) = items.map (fun it => it.1.arg) := by
  have hn : NUL ∉ List.replicate lead ' ' ++ lineBody items := by
    intro h
    rcases List.mem_append.1 h with h | h
    · exact absurd (List.eq_of_mem_replicate h) (by decide)
    · exact lineBody_nul_free items hwf h
  obtain ⟨buf, ptrs, h1, h2⟩ := parseline_split_items lead items hwf hsep
  have h3 := parseline_tokens_eq_splitLine _ hn
  have he : (List.replicate lead ' ' ++ lineBody items) ++ ['\n'] = commandLine lead items := by
    simp [commandLine, List.append_assoc]
  rw [he, parseline_tokens, h1] at h3
  simp only [Option.map_some', Option.some.injEq] at h3
  rw [← h3, h2]

/-- C8, as the claim states it, fails: on the line "ls &foo" the last token is
"&foo", not "&", and `parseline` still returns 1 and removes that token from
argv. -/
theorem bg_flag_set_by_longer_token :
    splitLine "ls &foo".toList = ["ls".toList, "&foo".toList] ∧
      (parseline "ls &foo\n".toList).map (fun p => (p.ret, p.args)) =
        some (1, ["ls".toList]) := by
  decide

/-- C8 (amended): on every newline-terminated command line with at least one
token after quote/space splitting, `parseline` returns 1 (background) if and
only if the last token begins with the character '&'; in that case argv holds
the tokens without the last one, and otherwise the return value is 0 and argv
holds every token. -/
theorem parseline_background_flag (line : List Char) (hnul : NUL ∉ line)
    (hne : splitLine line ≠ []) :
    ∃ p, parseline (line ++ ['\n']) = some p ∧
      (p.ret = 1 ↔ ∃ w, (splitLine line).getLast? = some ('&' :: w)) ∧
      (p.ret = 1 → p.args = (splitLine line).dropLast) ∧
      (p.ret ≠ 1 → p.ret = 0 ∧ p.args = splitLine line) := by
  obtain ⟨toks, p, ht, hp, h⟩ := parseline_flag_of_split line hnul
  rw [parseline_tokens_eq_splitLine line hnul, Option.some.injEq] at ht
  subst ht
  exact ⟨p, hp, h hne⟩

theorem parseline_background_flag_witness :
    NUL ∉ "ls '& x'".toList ∧ splitLine "ls '& x'".toList ≠ [] ∧
    ∃ p, parseline ("ls '& x'".toList ++ ['\n']) = some p ∧
      (p.ret = 1 ↔ ∃ w, (splitLine "ls '& x'".toList).getLast? = some ('&' :: w)) ∧
      (p.ret = 1 → p.args = (splitLine "ls '& x'".toList).dropLast) ∧
      (p.ret ≠ 1 → p.ret = 0 ∧ p.args = splitLine "ls '& x'".toList) :=
  ⟨by decide, by decide,
    parseline_background_flag "ls '& x'".toList (by decide) (by decide)⟩

/-- The flag on four lines: a quoted last token that begins with '&', an
ampersand that ends a word, a lone ampersand, and a quoted span that is not
closed. -/
theorem parseline_flag_examples :
    splitLine "ls '& x'".toList = ["ls".toList, "& x".toList] ∧
    (parseline "ls '& x'\n".toList).map (fun p => (p.ret, p.args)) =
      some (1, ["ls".toList]) ∧
    splitLine "sleep 5&".toList = ["sleep".toList, "5&".toList] ∧
    (parseline "sleep 5&\n".toList).map (fun p => (p.ret, p.args)) =
      some (0, ["sleep".toList, "5&".toList]) ∧
    splitLine "sleep 5 &".toList = ["sleep".toList, "5".toList, "&".toList] ∧
    (parseline "sleep 5 &\n".toList).map (fun p => (p.ret, p.args)) =
      some (1, ["sleep".toList, "5".toList]) ∧
    splitLine "echo 'a b".toList = ["echo".toList] ∧
    (parseline "echo 'a b\n".toList).map (fun p => (p.ret, p.args)) =
      some (0, ["echo".toList]) := by
  decide

/-! ## Background launch -/

/-- Handler runs in which `waitpid` reports no child leave the shell as it
is. -/
theorem runHandlers_quiet (chld : List (Nat → Int → Int × WStatus)) (s : Shell)
    (hlen : s.jobs.length = MAXJOBS) (hq : ∀ w ∈ chld, ∀ i q, (w i q).1 ≤ 0) :
    runHandlers chld s = some s := by
  induction chld with
  | nil => rfl
  | cons w ws ih =>
    have hw : sigchld_handler s w = some s := by
      unfold sigchld_handler
      apply sigchld_loop_quiet
      · intro i hi
        rw [hlen]
        exact List.mem_range.1 hi
      · intro i _ q
        exact hq w (List.mem_cons_self _ _) i q
    simp only [runHandlers, hw]
    exact ih (fun w1 h1 => hq w1 (List.mem_cons_of_mem _ h1))

/-- C10, as the claim states it, fails: on a full table the parent branch
prints the capacity message and then an acknowledgment with job id 0, and
registers nothing. -/
theorem background_ack_on_full_table :
    eval fullShell "sleep 5 &\n".toList 4242 true [] =
      .ret { fullShell with
        out := "Tried to create too many jobs\n[0] (4242) sleep 5 &\n".toList } := by
  decide

/-- The acknowledgment after the child has already been reaped: from the
initial table, the child exits before the parent unblocks the signals, the
pending `SIGCHLD` is handled between `sigprocmask` and `printf`, and the line
reads job id 0 while the table is left without a live entry. -/
theorem background_ack_after_reap :
    eval (initShell 0) "sleep 5 &\n".toList 4242 true
        [fun _ q => if q = 4242 then (4242, .exited 0) else (-1, .other)] =
      .ret { jobs := List.replicate 16 freeSlot, nextjid := 1, verbose := 0,
             out := "[0] (4242) sleep 5 &\n".toList } := by
  decide

set_option maxRecDepth 1000000 in
/-- The other conditions of the background acknowledgment: with `verbose` on,
`addjob` prints a line of its own before it; with the child's pid already in
an earlier slot, the job id printed is that slot's; and on a line of 128
arguments `parseline` has overrun `argv` before `eval` gets that far. -/
theorem background_ack_other_conditions :
    eval (initShell 1) "sleep 5 &\n".toList 4242 true [] =
      .ret { jobs := { pid := 4242, jid := 1, state := BG, cmdline := "sleep 5 &\n".toList } ::
               List.replicate 15 freeSlot,
             nextjid := 2, verbose := 1,
             out := "Added job [1] 4242 sleep 5 &\n\n[1] (4242) sleep 5 &\n".toList } ∧
    eval { stoppedJobShell with nextjid := 5 } "sleep 5 &\n".toList 22203 true [] =
      .ret { jobs := { pid := 22203, jid := 1, state := ST, cmdline := "sleep 100\n".toList } ::
               { pid := 22203, jid := 5, state := BG, cmdline := "sleep 5 &\n".toList } ::
               List.replicate 14 freeSlot,
             nextjid := 6, verbose := 0,
             out := "[1] (22203) sleep 5 &\n".toList } ∧
    argvOverrun manyArgsLine = true ∧
    eval (initShell 0) manyArgsLine 4242 true [] = .undefined := by
  decide

/-- The parent branch of `eval` for a background command, on a table with a
free slot that does not hold the child's pid, with `verbose` off, when no
handler run before the `printf` finds a child that has changed state. -/
theorem eval_parent_bg (s : Shell) (c : List Char) (p bg : Int)
    (chld : List (Nat → Int → Int × WStatus)) (hbg : bg ≠ 0) (hp : 1 ≤ p)
    (hlen : s.jobs.length = MAXJOBS)
    (hfree : ∃ j ∈ s.jobs, j.pid = 0) (hnew : ∀ j ∈ s.jobs, j.pid ≠ p)
    (hv : s.verbose = 0) (hq : ∀ w ∈ chld, ∀ i q, (w i q).1 ≤ 0) :
    ∃ i j s1, s.jobs[i]? = some j ∧ j.pid = 0 ∧
      (∀ k x, k < i → s.jobs[k]? = some x → x.pid ≠ 0) ∧
      eval_parent s bg p c chld = .ret s1 ∧
      s1.jobs = s.jobs.set i { pid := p, jid := s.nextjid, state := BG, cmdline := c } ∧
      s1.out = s.out ++ ("[".toList ++ fmt_d s.nextjid ++ "] (".toList ++ fmt_d p
        ++ ") ".toList ++ c) := by
  have hp1 : ¬ p < 1 := by omega
  cases hl : addjobLoop p BG s.nextjid c s.jobs with
  | none =>
    obtain ⟨j, hj, hj0⟩ := hfree
    exact absurd hj0 ((addjobLoop_none_iff _ _ _ _ _).1 hl j hj)
  | some l1 =>
    obtain ⟨pre, j, post, h1, h2, h3, h4⟩ := addjobLoop_some_split _ _ _ _ _ _ hl
    have hpre : ∀ x ∈ pre, x.pid ≠ p := fun x hx => hnew x (by rw [h1]; simp [hx])
    have hjid := pid2jidLoop_split p pre
      { pid := p, jid := s.nextjid, state := BG, cmdline := c } post rfl hpre
    have hadd : (addjob s p BG c).2 =
        { jobs := pre ++ { pid := p, jid := s.nextjid, state := BG, cmdline := c } :: post,
          nextjid := if s.nextjid + 1 > (MAXJOBS : Int) then 1 else s.nextjid + 1,
          verbose := s.verbose, out := s.out } := by
      simp only [addjob, hp1, if_false, hl, hv, not_true_eq_false, h4, ne_eq]
    have hlen1 : (addjob s p BG c).2.jobs.length = MAXJOBS := by
      rw [hadd, ← hlen, h1]
      simp
    have hrun := runHandlers_quiet chld _ hlen1 hq
    have hev : eval_parent s bg p c chld = .ret
        { jobs := pre ++ { pid := p, jid := s.nextjid, state := BG, cmdline := c } :: post,
          nextjid := if s.nextjid + 1 > (MAXJOBS : Int) then 1 else s.nextjid + 1,
          verbose := s.verbose,
          out := s.out ++ ("[".toList ++ fmt_d s.nextjid ++ "] (".toList ++ fmt_d p
            ++ ") ".toList ++ c) } := by
      unfold eval_parent
      rw [if_pos hbg, hrun, hadd]
      simp only [pid2jid, hjid, hp1, if_false]
    refine ⟨pre.length, j, _, ?_, h2, ?_, hev, ?_, rfl⟩
    · rw [h1]; exact getElem?_split_at pre j post
    · intro k x hk hx
      rw [h1] at hx
      exact h3 x (getElem?_split_before pre j post k x hk hx)
    · simp only [h1, set_split_at]

/-- C10 (amended): for every table with a free slot and no slot holding pid
`p`, with `verbose` off, every background command line `c` that keeps
`parseline` within `argv[MAXARGS]`, and child pid `p >= 1`, when no run of
`sigchld_handler` between the unblocking of the signals and the `printf` finds
a child that has changed state, `eval` registers the child in state `BG` in
the first free slot and prints exactly the line "[j] (p) c", `j` being the job
id given to the new job.  From the initial table with `c = "sleep 5 &\n"`, on
the same condition on the handlers, the output is "[1] (p) sleep 5 &\n" and
the table has exactly one live entry, in state `BG`. -/
theorem eval_background_ack :
    (∀ (s : Shell) (c : List Char) (p : Int) (execOk : Bool)
        (chld : List (Nat → Int → Int × WStatus)) (prs : Parsed),
      parseline c = some prs → argvOverrun c = false → prs.args ≠ [] →
      builtin_cmd prs.args = 0 → prs.ret ≠ 0 → 1 ≤ p → s.jobs.length = MAXJOBS →
      (∃ j ∈ s.jobs, j.pid = 0) → (∀ j ∈ s.jobs, j.pid ≠ p) → s.verbose = 0 →
      (∀ w ∈ chld, ∀ i q, (w i q).1 ≤ 0) →
      ∃ i j s1, s.jobs[i]? = some j ∧ j.pid = 0 ∧
        (∀ k x, k < i → s.jobs[k]? = some x → x.pid ≠ 0) ∧
        eval s c p execOk chld = .ret s1 ∧
        s1.jobs = s.jobs.set i { pid := p, jid := s.nextjid, state := BG, cmdline := c } ∧
        s1.out = s.out ++ ("[".toList ++ fmt_d s.nextjid ++ "] (".toList ++ fmt_d p
          ++ ") ".toList ++ c)) ∧
    (∀ (p : Int) (execOk : Bool) (chld : List (Nat → Int → Int × WStatus)), 1 ≤ p →
      (∀ w ∈ chld, ∀ i q, (w i q).1 ≤ 0) →
      eval (initShell 0) "sleep 5 &\n".toList p execOk chld =
        .ret { jobs := { pid := p, jid := 1, state := BG, cmdline := "sleep 5 &\n".toList } ::
                 List.replicate 15 freeSlot,
               nextjid := 2, verbose := 0,
               out := "[1] (".toList ++ fmt_d p ++ ") sleep 5 &\n".toList }) := by
  constructor
  · intro s c p execOk chld prs hparse hov hargs hbi hret hp hlen hfree hnew hv hq
    have hp0 : p ≠ 0 := by omega
    have he : eval s c p execOk chld = eval_parent s prs.ret p c chld := by
      simp [eval, hparse, hargs, hbi, hp0, hov]
    rw [he]
    exact eval_parent_bg s c p prs.ret chld hret hp hlen hfree hnew hv hq
  · intro p execOk chld hp hq
    have hp0 : p ≠ 0 := by omega
    have hp1 : ¬ p < 1 := by omega
    have he := eval_of_parse (initShell 0) "sleep 5 &\n".toList p execOk chld
      (1, ["sleep".toList, "5".toList]) (by decide) (by decide) (by decide)
    rw [if_neg (by decide), if_neg hp0] at he
    have hadd : (addjob (initShell 0) p BG "sleep 5 &\n".toList).2 =
        { jobs := { pid := p, jid := 1, state := BG, cmdline := "sleep 5 &\n".toList } ::
            List.replicate 15 freeSlot,
          nextjid := 2, verbose := 0, out := [] } := by
      simp [addjob, hp1, initShell, initjobs, jobs0, clearjob, addjobLoop, MAXJOBS,
        List.replicate, freeSlot]
    have hrun := runHandlers_quiet chld (addjob (initShell 0) p BG "sleep 5 &\n".toList).2
      (by rw [hadd]; rfl) hq
    rw [he]
    unfold eval_parent
    rw [if_pos (by decide), hrun, hadd]
    simp [pid2jid, hp1, pid2jidLoop, fmt_d, Nat.toDigits, Nat.toDigitsCore, Nat.digitChar]

end Tsh
